import Mathlib

/-! # Campus event management (`pp.cpp`): shallow embedding and verified properties

The C++ program keeps all of its state in an `EventManager` (a vector of
events and a vector of users) plus the static counter `Event::nextId`.

Modelling conventions
* `std::string` is a Lean `String`; one Lean `Char` stands for one C++ `char`.
* `int` is `Int`; `size_t` is a `Nat` with explicit reduction modulo `2 ^ 64`
  wherever a conversion or wrap-around can occur.
* `std::vector<T>` is `List T` (`push_back x` is `++ [x]`), an iterator into a
  vector is an index, and `end()` is the length.
* `std::map<int,int>` is an association list kept in strictly increasing key
  order.
* a member function that mutates its object returns the new object; what it
  writes to `cout` is returned as a list of `Out` items.
-/

namespace Campus

/-! ## Data model -/

/-- The `enum class EventCategory` of the program. -/
inductive EventCategory where
  | ACADEMIC
  | CULTURAL
  | TECHNICAL
  | SPORTS
  deriving DecidableEq, Repr

/-- The dynamic type of an event object together with the fields its derived
class adds: a plain `Event`, a `Seminar`, a `Workshop` or a `SportsEvent`. -/
inductive EventKind where
  | base
  | seminar (speaker : String)
  | workshop (topic : String) (isOnline : Bool)
  | sportsEvent (sportType : String)
  deriving DecidableEq, Repr

/-- The fields of `class Event`, with the derived-class part in `kind`. -/
structure Event where
  id : Int
  name : String
  date : String
  capacity : Int
  category : EventCategory
  registeredUsers : List String
  waitlist : List String
  ratings : List Int
  kind : EventKind
  deriving DecidableEq, Repr

/-- The fields of `class User`; `eventRatings` is the `map<int,int>` from event
id to rating, as its entries in key order. -/
structure User where
  username : String
  password : String
  isAdmin : Bool
  registeredEvents : List Int
  eventRatings : List (Int × Int)
  deriving DecidableEq, Repr

/-- The fields of `class EventManager`. -/
structure EventManager where
  events : List Event
  users : List User
  deriving DecidableEq, Repr

/-- One item written to `cout`: a line of text ended by `endl`, or the block
that the virtual call `displayInfo()` prints for an event. -/
inductive Out where
  | line (s : String)
  | displayInfo (e : Event)
  deriving DecidableEq, Repr

/-! ## Machine integers -/

/-- The largest value of `int`. -/
def INT_MAX : Int := 2147483647

/-- The number of values of `size_t`. -/
def SIZE_MOD : Nat := 2 ^ 64

/-- The value `std::string::npos`, the largest `size_t`. -/
def npos : Nat := SIZE_MOD - 1

/-- Conversion of an `int` to `size_t`, as the usual arithmetic conversions do
when an `int` is compared with a `size_t`: reduction modulo `2 ^ 64`. -/
def toSizeT (c : Int) : Nat := (c % (SIZE_MOD : Int)).toNat

/-- Subtraction of two `size_t` values, wrapping modulo `2 ^ 64`. -/
def sizeSub (a b : Nat) : Nat := (a % SIZE_MOD + SIZE_MOD - b % SIZE_MOD) % SIZE_MOD

/-- Addition of two `size_t` values, wrapping modulo `2 ^ 64`. -/
def sizeAdd (a b : Nat) : Nat := (a + b) % SIZE_MOD

/-! ## class Event -/

/-- The constructor `Event(n, d, c, cat)`: the new object takes the current
value of the static counter `nextId` as its id and the counter is incremented;
the three vectors start empty. Returns the object and the new counter. -/
def Event.ctor (nextId : Int) (n d : String) (c : Int) (cat : EventCategory) : Event × Int :=
  ({ id := nextId, name := n, date := d, capacity := c, category := cat,
     registeredUsers := [], waitlist := [], ratings := [], kind := EventKind.base },
   nextId + 1)

/-- The constructor `Seminar(n, d, c, s)`. -/
def Seminar.ctor (nextId : Int) (n d : String) (c : Int) (s : String) : Event × Int :=
  let r := Event.ctor nextId n d c EventCategory.ACADEMIC
  ({ r.1 with kind := EventKind.seminar s }, r.2)

/-- The constructor `Workshop(n, d, c, t, online)`. -/
def Workshop.ctor (nextId : Int) (n d : String) (c : Int) (t : String) (online : Bool) :
    Event × Int :=
  let r := Event.ctor nextId n d c EventCategory.TECHNICAL
  ({ r.1 with kind := EventKind.workshop t online }, r.2)

/-- The constructor `SportsEvent(n, d, c, s)`. -/
def SportsEvent.ctor (nextId : Int) (n d : String) (c : Int) (s : String) : Event × Int :=
  let r := Event.ctor nextId n d c EventCategory.SPORTS
  ({ r.1 with kind := EventKind.sportsEvent s }, r.2)

/-- The member `Event::register_participant` (virtual, overridden nowhere).
The test `registeredUsers.size() < capacity` compares a `size_t` with an `int`,
so `capacity` is converted to `size_t` first. -/
def Event.register_participant (e : Event) (username : String) : Event × Bool × List Out :=
  if e.registeredUsers.length < toSizeT e.capacity then
    ({ e with registeredUsers := e.registeredUsers ++ [username] }, true,
      [Out.line "Participant registered successfully."])
  else
    ({ e with waitlist := e.waitlist ++ [username] }, false,
      [Out.line "Event is full. You've been added to the waitlist."])

/-- The member `Event::addRating`. -/
def Event.addRating (e : Event) (rating : Int) : Event :=
  { e with ratings := e.ratings ++ [rating] }

/-- The static member `Event::getCategoryString`; the `default` branch of the
switch has no enumerator left to match. -/
def Event.getCategoryString : EventCategory → String
  | EventCategory.ACADEMIC => "Academic"
  | EventCategory.CULTURAL => "Cultural"
  | EventCategory.TECHNICAL => "Technical"
  | EventCategory.SPORTS => "Sports"

/-- A run of `register_participant` calls on one event, one call per username
in list order: the final event and the return value of every call. -/
def Event.registerAll : Event → List String → Event × List Bool
  | e, [] => (e, [])
  | e, u :: us =>
    let r := e.register_participant u
    let rest := Event.registerAll r.1 us
    (rest.1, r.2.1 :: rest.2)

/-! ## class User -/

/-- The constructor `User(u, p, admin)`; the default `admin = false` of the
source is passed explicitly. -/
def User.ctor (u p : String) (admin : Bool) : User :=
  { username := u, password := p, isAdmin := admin, registeredEvents := [], eventRatings := [] }

/-- The member `User::authenticate`. -/
def User.authenticate (u : User) (p : String) : Bool := u.password == p

/-- The member `User::isAdminUser`. -/
def User.isAdminUser (u : User) : Bool := u.isAdmin

/-- The member `User::getUsername`. -/
def User.getUsername (u : User) : String := u.username

/-- The member `User::registerForEvent`. -/
def User.registerForEvent (u : User) (eventId : Int) : User :=
  { u with registeredEvents := u.registeredEvents ++ [eventId] }

/-- The statement `m[k] = v` on a `std::map<int,int>`: the entry with key `k`
is created at its place in key order when absent, and its value becomes `v`. -/
def mapAssign : List (Int × Int) → Int → Int → List (Int × Int)
  | [], k, v => [(k, v)]
  | (k', v') :: rest, k, v =>
    if k < k' then (k, v) :: (k', v') :: rest
    else if k = k' then (k, v) :: rest
    else (k', v') :: mapAssign rest k v

/-- Well-formed `std::map`: keys strictly increasing (so no key occurs twice). -/
def MapWF (m : List (Int × Int)) : Prop := (m.map Prod.fst).Pairwise (fun a b => a < b)

/-- Well-formedness of a map can be computed. -/
instance MapWF.decidable (m : List (Int × Int)) : Decidable (MapWF m) := by
  unfold MapWF
  infer_instance

/-- The member `User::rateEvent`. -/
def User.rateEvent (u : User) (eventId rating : Int) : User :=
  { u with eventRatings := mapAssign u.eventRatings eventId rating }

/-- The call `str.find_first_not_of(c)`: the index of the first character other
than `c`, or `npos`. -/
def find_first_not_of (str : List Char) (c : Char) : Nat :=
  let i := str.findIdx (fun x => x != c)
  if i < str.length then i else npos

/-- The call `str.find_last_not_of(c)`: the index of the last character other
than `c`, or `npos`. -/
def find_last_not_of (str : List Char) (c : Char) : Nat :=
  let i := str.reverse.findIdx (fun x => x != c)
  if i < str.length then str.length - 1 - i else npos

/-- The call `str.substr(pos, n)`: the characters from index `pos` on, at most
`n` of them; `none` stands for the `out_of_range` exception thrown when `pos`
is beyond the size. -/
def substr (str : List Char) (pos n : Nat) : Option (List Char) :=
  if pos > str.length then none else some ((str.drop pos).take n)

/-- The static member `User::trim`; `last - first + 1` is `size_t` arithmetic. -/
def User.trim (str : String) : Option String :=
  let first := find_first_not_of str.data ' '
  let last := find_last_not_of str.data ' '
  if first = npos then some "" else
    (substr str.data first (sizeAdd (sizeSub last first) 1)).map String.mk

/-- The search loop of `std::string::find`: the first index, counted from `i`
at the head of the remaining text, at which `q` occurs, or `npos`. -/
def findAt (q : List Char) : List Char → Nat → Nat
  | [], i => if q.isPrefixOf [] then i else npos
  | c :: s, i => if q.isPrefixOf (c :: s) then i else findAt q s (i + 1)

/-- The call `str.find(q)`. -/
def find (str q : List Char) : Nat := findAt q str 0

/-! ## class EventManager -/

/-- The algorithm `std::find_if` over a whole vector: the index of the first
element satisfying `p`, or the length (the iterator `end()`). -/
def find_if {α : Type} (p : α → Bool) (v : List α) : Nat := v.findIdx p

/-- The member `EventManager::addEvent`. -/
def EventManager.addEvent (m : EventManager) (event : Event) : EventManager :=
  { m with events := m.events ++ [event] }

/-- The member `EventManager::addUser`. -/
def EventManager.addUser (m : EventManager) (user : User) : EventManager :=
  { m with users := m.users ++ [user] }

/-- The member `EventManager::displayAllEvents`. -/
def EventManager.displayAllEvents (m : EventManager) : List Out :=
  m.events.foldl
    (fun out event => out ++ [Out.displayInfo event, Out.line "------------------------"]) []

/-- The member `EventManager::registerParticipant`. -/
def EventManager.registerParticipant (m : EventManager) (eventId : Int) (username : String) :
    EventManager × Bool × List Out :=
  let it := find_if (fun event => event.id == eventId) m.events
  if h : it < m.events.length then
    let r := (m.events.get ⟨it, h⟩).register_participant username
    ({ m with events := m.events.set it r.1 }, r.2.1, r.2.2)
  else
    (m, false, [Out.line "Invalid event ID."])

/-- The member `EventManager::authenticateUser`. The returned pointer is the
index of the user in `users`; `none` is `nullptr`. -/
def EventManager.authenticateUser (m : EventManager) (username password : String) :
    EventManager × Option Nat :=
  let it := find_if (fun u => u.getUsername == username && u.authenticate password) m.users
  (m, if it < m.users.length then some it else none)

/-- The member `EventManager::rateEvent`. The argument `user` is the object the
reference designates; its new value is returned next to the manager. -/
def EventManager.rateEvent (m : EventManager) (eventId rating : Int) (user : User) :
    EventManager × User × List Out :=
  let it := find_if (fun event => event.id == eventId) m.events
  if h : it < m.events.length then
    ({ m with events := m.events.set it ((m.events.get ⟨it, h⟩).addRating rating) },
      user.rateEvent eventId rating, [Out.line "Thank you for rating the event!"])
  else
    (m, user, [Out.line "Invalid event ID."])

/-- The condition of the `if` in the loop of `searchEvents`. -/
def searchMatches (query : String) (event : Event) : Bool :=
  find event.name.data query.data != npos ||
  find event.date.data query.data != npos ||
  find (Event.getCategoryString event.category).data query.data != npos

/-- The member `EventManager::searchEvents`; the loop carries the output so far
and the flag `found`. -/
def EventManager.searchEvents (m : EventManager) (query : String) : EventManager × List Out :=
  let r := m.events.foldl
    (fun (acc : List Out × Bool) event =>
      if searchMatches query event then
        (acc.1 ++ [Out.displayInfo event, Out.line "------------------------"], true)
      else acc)
    ([Out.line ("Search results for '" ++ query ++ "':")], false)
  (m, if !r.2 then r.1 ++ [Out.line "No events found matching the query."] else r.1)

/-- The member `EventManager::displayUserProfile`. -/
def EventManager.displayUserProfile (m : EventManager) (user : User) : List Out :=
  [Out.line ("User Profile for " ++ user.getUsername), Out.line "Registered Events:"] ++
  user.registeredEvents.filterMap (fun eventId =>
    let it := find_if (fun event => event.id == eventId) m.events
    if h : it < m.events.length then
      some (Out.line ("- " ++ (m.events.get ⟨it, h⟩).name ++ " (ID: " ++ toString eventId ++ ")"))
    else none) ++
  [Out.line "Event Ratings:"] ++
  user.eventRatings.filterMap (fun kv =>
    let it := find_if (fun event => event.id == kv.1) m.events
    if h : it < m.events.length then
      some (Out.line ("- " ++ (m.events.get ⟨it, h⟩).name ++ ": " ++ toString kv.2 ++ "/5"))
    else none)

/-! ## The set-up at the start of main -/

/-- The manager and the value of `Event::nextId` once `main` has added its
three users and three events (`nextId` starts at 1). -/
def seed : EventManager × Int :=
  let m0 : EventManager := { events := [], users := [] }
  let m1 := m0.addUser (User.ctor "sit" "pune1234" true)
  let m2 := m1.addUser (User.ctor "lavale" "hillbase" false)
  let m3 := m2.addUser (User.ctor "209" "pass123" false)
  let e1 := Seminar.ctor 1 "Career in CyberSecurity and Digital Forensics" "2024-11-15" 100
    "Mr. Nikhil Mahadeshwar"
  let m4 := m3.addEvent e1.1
  let e2 := Workshop.ctor e1.2 "Web Development" "2024-11-01" 50 "Full-stack JavaScript" true
  let m5 := m4.addEvent e2.1
  let e3 := SportsEvent.ctor e2.2 "Prota" "2024-08-20" 500 "All"
  let m6 := m5.addEvent e3.1
  (m6, e3.2)

/-! ## The admin command and the menu loop of main

The loop reads its input from `cin`. The model takes what one pass reads as a
value of the type of the variables it is read into; how the characters typed
are converted is not modelled. Of the output, the statements that end in
`endl` are recorded; the prompts, written without `endl`, are not. Overflow of
the `int` counter `nextId` is undefined behaviour and outside the model. -/

/-- What `addNewEvent` reads: name, date, capacity, category and the field of
the chosen variant (of the last four, the branch taken reads its own). -/
structure NewEventInput where
  name : String
  date : String
  capacity : Int
  categoryInput : String
  speaker : String
  topic : String
  isOnline : Bool
  sportType : String
  deriving DecidableEq, Repr

/-- The first `if` chain of `addNewEvent`: the category named by the input, or
`none` on the branch that prints "Invalid category" and returns. -/
def parseCategory (categoryInput : String) : Option EventCategory :=
  if categoryInput = "Academic" then some EventCategory.ACADEMIC
  else if categoryInput = "Technical" then some EventCategory.TECHNICAL
  else if categoryInput = "Sports" then some EventCategory.SPORTS
  else none

/-- The member `EventManager::addNewEvent`, with the counter `Event::nextId`
passed in and out. The second `if` chain leaves `event` null for a category
without a variant, and only a non-null `event` is added. -/
def EventManager.addNewEvent (m : EventManager) (nextId : Int) (inp : NewEventInput) :
    EventManager × Int × List Out :=
  match parseCategory inp.categoryInput with
  | none => (m, nextId, [Out.line "Invalid category. Event not added."])
  | some category =>
    let event : Option (Event × Int) :=
      if category = EventCategory.ACADEMIC then
        some (Seminar.ctor nextId inp.name inp.date inp.capacity inp.speaker)
      else if category = EventCategory.TECHNICAL then
        some (Workshop.ctor nextId inp.name inp.date inp.capacity inp.topic inp.isOnline)
      else if category = EventCategory.SPORTS then
        some (SportsEvent.ctor nextId inp.name inp.date inp.capacity inp.sportType)
      else none
    match event with
    | some r => (m.addEvent r.1, r.2, [Out.line "Event added successfully."])
    | none => (m, nextId, [])

/-- The state of `main` inside its loop: the manager, the static counter
`Event::nextId`, and `currentUser` as an index into `users` (`none` is
`nullptr`). -/
structure Shell where
  manager : EventManager
  nextId : Int
  currentUser : Option Nat
  deriving DecidableEq, Repr

/-- What the menu part of one pass of the loop reads: the choice and, for the
case taken, its own variables. -/
structure MenuInput where
  choice : Int
  eventId : Int
  rating : Int
  query : String
  newEvent : NewEventInput
  deriving DecidableEq, Repr

/-- What the loop reads next: username and password at the login prompt, or a
menu choice with its data. -/
inductive Input where
  | credentials (username password : String)
  | menu (mi : MenuInput)
  deriving DecidableEq, Repr

/-- The state of `main` when the loop is entered. -/
def initial : Shell := { manager := seed.1, nextId := seed.2, currentUser := none }

/-- The menu lines printed before the choice is read. -/
def menuLines (user : User) : List Out :=
  [Out.line "\nCampus Event Management System", Out.line "1. Display All Events",
   Out.line "2. Register for an Event", Out.line "3. Search Events",
   Out.line "4. Rate an Event", Out.line "5. View User Profile"] ++
  (if user.isAdminUser then [Out.line "6. Add New Event"] else []) ++
  [Out.line "0. Logout"]

/-- The `switch (choice)` of `main`; `cur` is `currentUser` and `user` the
object it points to. -/
def menuStep (s : Shell) (cur : Nat) (user : User) (mi : MenuInput) : Shell × List Out :=
  if mi.choice = 1 then
    (s, s.manager.displayAllEvents)
  else if mi.choice = 2 then
    let r := s.manager.registerParticipant mi.eventId user.getUsername
    if r.2.1 then
      ({ s with manager :=
            { r.1 with users := r.1.users.set cur (user.registerForEvent mi.eventId) } },
        r.2.2)
    else ({ s with manager := r.1 }, r.2.2)
  else if mi.choice = 3 then
    let r := s.manager.searchEvents mi.query
    ({ s with manager := r.1 }, r.2)
  else if mi.choice = 4 then
    if mi.rating ≥ 1 ∧ mi.rating ≤ 5 then
      let r := s.manager.rateEvent mi.eventId mi.rating user
      ({ s with manager := { r.1 with users := r.1.users.set cur r.2.1 } }, r.2.2)
    else (s, [Out.line "Invalid rating. Please enter a number between 1 and 5."])
  else if mi.choice = 5 then
    (s, s.manager.displayUserProfile user)
  else if mi.choice = 6 then
    if user.isAdminUser then
      let r := s.manager.addNewEvent s.nextId mi.newEvent
      ({ s with manager := r.1, nextId := r.2.1 }, r.2.2)
    else (s, [Out.line "Invalid choice. Please try again."])
  else if mi.choice = 0 then
    ({ s with currentUser := none }, [Out.line "Logged out successfully."])
  else (s, [Out.line "Invalid choice. Please try again."])

/-- One pass of the loop of `main`, split at the point where the menu is shown:
with nobody logged in the pass reads credentials and authenticates; with
somebody logged in it prints the menu, reads a choice and runs its case.
`none` when the input is not what the pass reads, when `trim` throws, or when
`currentUser` points outside `users`. -/
def step (s : Shell) (inp : Input) : Option (Shell × List Out) :=
  match s.currentUser, inp with
  | none, Input.credentials username password =>
    match User.trim username with
    | none => none
    | some u =>
      match User.trim password with
      | none => none
      | some p =>
        let r := s.manager.authenticateUser u p
        match r.2 with
        | some i => some ({ s with manager := r.1, currentUser := some i }, [])
        | none =>
          some ({ s with manager := r.1 },
            [Out.line "Invalid credentials. Please try again."])
  | some cur, Input.menu mi =>
    match s.manager.users[cur]? with
    | none => none
    | some user =>
      let r := menuStep s cur user mi
      some (r.1, menuLines user ++ r.2)
  | _, _ => none

/-- The loop of `main` over a sequence of inputs: the state after the last one,
or `none` when some pass has no result. -/
def run : Shell → List Input → Option Shell
  | s, [] => some s
  | s, inp :: rest =>
    match step s inp with
    | some r => run r.1 rest
    | none => none

/-- One call `manager.rateEvent(eventId, rating, user)` where `user` is the
element of `users` at an index. -/
structure RateCall where
  user : Nat
  eventId : Int
  rating : Int
  deriving DecidableEq, Repr

/-- The call of `EventManager::rateEvent` on a user of the collection; the
changed user object is the element of `users` itself. An index outside `users`
designates no user and there is no call. -/
def rateCall (m : EventManager) (c : RateCall) : EventManager :=
  match m.users[c.user]? with
  | some u =>
    let r := m.rateEvent c.eventId c.rating u
    { r.1 with users := r.1.users.set c.user r.2.1 }
  | none => m

/-- A sequence of `rateEvent` calls. -/
def rateAll (m : EventManager) (cs : List RateCall) : EventManager := cs.foldl rateCall m

/-! ## Reading the output -/

/-- The events whose `displayInfo()` block appears in an output, in order. -/
def shown : List Out → List Event
  | [] => []
  | Out.displayInfo e :: rest => e :: shown rest
  | Out.line _ :: rest => shown rest

/-! ## Specification-side definitions -/

/-- The text of a string without its longest prefix and longest suffix made of
the character `c` only. -/
def stripChar (c : Char) (s : List Char) : List Char :=
  (s.dropWhile (fun x => x == c)).rdropWhile (fun x => x == c)

/-- A state the loop of `main` can be in: the result of `run` on some inputs. -/
def Reachable (s : Shell) : Prop := ∃ inputs, run initial inputs = some s

/-- The ratings that the users' rating maps hold for an event id, one for each
user that has an entry, in the order of the users. -/
def heldRatings (m : EventManager) (eventId : Int) : List Int :=
  m.users.filterMap (fun u => List.lookup eventId u.eventRatings)

/-- An event after a step extends the event before it: the fixed fields are
the same and each of the three sequences has the earlier one as a prefix. -/
def EventExtends (e e' : Event) : Prop :=
  e'.id = e.id ∧ e'.name = e.name ∧ e'.date = e.date ∧ e'.capacity = e.capacity ∧
  e'.category = e.category ∧ e'.kind = e.kind ∧
  e.registeredUsers <+: e'.registeredUsers ∧ e.waitlist <+: e'.waitlist ∧
  e.ratings <+: e'.ratings

/-- The event collection after a step extends the one before it: every event
is still there, at its place and extended; new events come after them. -/
def EventsExtend : List Event → List Event → Prop
  | [], _ => True
  | _ :: _, [] => False
  | e :: es, e' :: es' => EventExtends e e' ∧ EventsExtend es es'

/-- The ways in which one pass of the loop of `main` changes the manager and
the counter `nextId`: not at all; an accepted registration; a waitlisted
registration; a rating in 1..5 of an existing event; a new event added by an
admin. Each case names the event and the user concerned by their place in the
two vectors. -/
inductive Effect (s : Shell) (inp : Input) (s' : Shell) : Prop where
  | same (hm : s'.manager = s.manager) (hn : s'.nextId = s.nextId)
  | accepted (pre : List Event) (e : Event) (post : List Event)
      (ua : List User) (user : User) (ub : List User) (mi : MenuInput)
      (hinp : inp = Input.menu mi) (hc : mi.choice = 2)
      (hcur : s.currentUser = some ua.length)
      (he : s.manager.events = pre ++ e :: post) (hu : s.manager.users = ua ++ user :: ub)
      (hpre : ∀ x ∈ pre, x.id ≠ mi.eventId) (hid : e.id = mi.eventId)
      (hroom : e.registeredUsers.length < toSizeT e.capacity)
      (hm : s'.manager =
        { events := pre ++ { e with registeredUsers := e.registeredUsers ++ [user.username] }
            :: post,
          users := ua ++ user.registerForEvent mi.eventId :: ub })
      (hn : s'.nextId = s.nextId)
  | waitlisted (pre : List Event) (e : Event) (post : List Event)
      (ua : List User) (user : User) (ub : List User) (mi : MenuInput)
      (hinp : inp = Input.menu mi) (hc : mi.choice = 2)
      (hcur : s.currentUser = some ua.length)
      (he : s.manager.events = pre ++ e :: post) (hu : s.manager.users = ua ++ user :: ub)
      (hpre : ∀ x ∈ pre, x.id ≠ mi.eventId) (hid : e.id = mi.eventId)
      (hfull : ¬ e.registeredUsers.length < toSizeT e.capacity)
      (hm : s'.manager =
        { events := pre ++ { e with waitlist := e.waitlist ++ [user.username] } :: post,
          users := s.manager.users })
      (hn : s'.nextId = s.nextId)
  | rated (pre : List Event) (e : Event) (post : List Event)
      (ua : List User) (user : User) (ub : List User) (mi : MenuInput)
      (hinp : inp = Input.menu mi) (hc : mi.choice = 4)
      (hcur : s.currentUser = some ua.length)
      (he : s.manager.events = pre ++ e :: post) (hu : s.manager.users = ua ++ user :: ub)
      (hpre : ∀ x ∈ pre, x.id ≠ mi.eventId) (hid : e.id = mi.eventId)
      (hrange : 1 ≤ mi.rating ∧ mi.rating ≤ 5)
      (hm : s'.manager =
        { events := pre ++ { e with ratings := e.ratings ++ [mi.rating] } :: post,
          users := ua ++ user.rateEvent mi.eventId mi.rating :: ub })
      (hn : s'.nextId = s.nextId)
  | added (e : Event) (ua : List User) (user : User) (ub : List User) (mi : MenuInput)
      (hinp : inp = Input.menu mi) (hc : mi.choice = 6)
      (hcur : s.currentUser = some ua.length)
      (hu : s.manager.users = ua ++ user :: ub) (hadmin : user.isAdmin = true)
      (hid : e.id = s.nextId) (hcap : e.capacity = mi.newEvent.capacity)
      (hreg : e.registeredUsers = []) (hwait : e.waitlist = []) (hrat : e.ratings = [])
      (hm : s'.manager = { events := s.manager.events ++ [e], users := s.manager.users })
      (hn : s'.nextId = s.nextId + 1)

/-- What the admin enters in the sample session for a new event. -/
def sampleNewEvent : NewEventInput :=
  { name := "Chess Open", date := "2024-12-01", capacity := 2, categoryInput := "Sports",
    speaker := "", topic := "", isOnline := false, sportType := "Chess" }

/-- A menu input with the given choice, event id and rating, an empty search
query and the sample new event. -/
def sampleMenu (choice eventId rating : Int) : MenuInput :=
  { choice := choice, eventId := eventId, rating := rating, query := "",
    newEvent := sampleNewEvent }

/-- A sample session: the admin logs in, adds a sports event of capacity 2,
registers for it and for the workshop, rates the workshop twice and logs out;
then "lavale" logs in, registers for the new event and rates the workshop. -/
def sampleInputs : List Input :=
  [Input.credentials "sit" "pune1234", Input.menu (sampleMenu 6 0 0),
   Input.menu (sampleMenu 2 4 0), Input.menu (sampleMenu 2 2 0),
   Input.menu (sampleMenu 4 2 3), Input.menu (sampleMenu 4 2 5),
   Input.menu (sampleMenu 0 0 0), Input.credentials "lavale" "hillbase",
   Input.menu (sampleMenu 2 4 0), Input.menu (sampleMenu 4 2 4)]

/-- The state at the end of the sample session. -/
def sampleState : Shell := (run initial sampleInputs).getD initial

/-- The name under which an event id is listed: the name of the first event
with that id (the empty string when there is none). -/
def eventName (m : EventManager) (eventId : Int) : String :=
  match m.events.find? (fun event => event.id == eventId) with
  | some e => e.name
  | none => ""

/-- The users' records refer to events of the collection only: every id of a
registered-events sequence and every key of a rating map is the id of an
event. -/
def NoDangling (s : Shell) : Prop :=
  (∀ u ∈ s.manager.users, ∀ k ∈ u.registeredEvents, ∃ e ∈ s.manager.events, e.id = k) ∧
  (∀ u ∈ s.manager.users, ∀ kv ∈ u.eventRatings, ∃ e ∈ s.manager.events, e.id = kv.1)

/-- The registered-events sequences mirror the `registeredUsers` vectors: the
id of an event occurs in a user's sequence as often as the username occurs
among the registered users of the event. -/
def RegistrationsMirrored (s : Shell) : Prop :=
  ∀ u ∈ s.manager.users, ∀ e ∈ s.manager.events,
    u.registeredEvents.count e.id = e.registeredUsers.count u.username

/-- What an admin enters for a seminar with capacity 0. -/
def zeroCapacityEvent : NewEventInput :=
  { name := "Open Mic", date := "2024-12-05", capacity := 0, categoryInput := "Academic",
    speaker := "Host", topic := "", isOnline := false, sportType := "" }

/-- The session in which the seed admin logs in and adds that seminar. -/
def zeroCapacityInputs : List Input :=
  [Input.credentials "sit" "pune1234",
   Input.menu { choice := 6, eventId := 0, rating := 0, query := "",
                newEvent := zeroCapacityEvent }]

/-- The ratings sequence of the event that the manager's lookups find for an
id: that of the first event with the id (empty when there is none). -/
def ratingsOf (m : EventManager) (eventId : Int) : List Int :=
  match m.events.find? (fun event => event.id == eventId) with
  | some e => e.ratings
  | none => []

/-- The rating that one `rateEvent` call overwrites in its user's map, for the
event id `k`: the entry the map held for `k` just before the call, when the
call is for `k`, designates a user and `k` is the id of an event; nothing
otherwise. -/
def overwrittenBy (m : EventManager) (c : RateCall) (k : Int) : List Int :=
  if c.eventId = k ∧ k ∈ m.events.map Event.id then
    match m.users[c.user]? with
    | some u => (List.lookup k u.eventRatings).toList
    | none => []
  else []

/-- The ratings for the event id `k` that a sequence of `rateEvent` calls
overwrites in the users' maps, in the order in which they are overwritten. -/
def overwritten : EventManager → List RateCall → Int → List Int
  | _, [], _ => []
  | m, c :: rest, k => overwrittenBy m c k ++ overwritten (rateCall m c) rest k

/-! ## Lemmas on machine integers -/

theorem toSizeT_of_int_range (c : Int) (h0 : 0 ≤ c) (h1 : c ≤ INT_MAX) :
    toSizeT c = c.toNat := by
  unfold toSizeT SIZE_MOD
  unfold INT_MAX at h1
  have h : c % ((2 ^ 64 : Nat) : Int) = c := by
    apply Int.emod_eq_of_lt h0
    norm_num
    omega
  rw [h]

theorem toSizeT_le_of_nonneg (c : Int) (h0 : 0 ≤ c) : (toSizeT c : Int) ≤ c := by
  unfold toSizeT SIZE_MOD
  have hm : ((2 ^ 64 : Nat) : Int) = 18446744073709551616 := by norm_num
  rw [hm]
  omega

/-! ## Event::register_participant -/

/-- Every constructor leaves the three vectors of the new event empty. -/
theorem ctor_vectors_empty (nextId : Int) (n d : String) (c : Int) (cat : EventCategory)
    (s t : String) (online : Bool) :
    (Event.ctor nextId n d c cat).1.registeredUsers = [] ∧
    (Event.ctor nextId n d c cat).1.waitlist = [] ∧
    (Seminar.ctor nextId n d c s).1.registeredUsers = [] ∧
    (Seminar.ctor nextId n d c s).1.waitlist = [] ∧
    (Workshop.ctor nextId n d c t online).1.registeredUsers = [] ∧
    (Workshop.ctor nextId n d c t online).1.waitlist = [] ∧
    (SportsEvent.ctor nextId n d c s).1.registeredUsers = [] ∧
    (SportsEvent.ctor nextId n d c s).1.waitlist = [] := by
  simp [Event.ctor, Seminar.ctor, Workshop.ctor, SportsEvent.ctor]

/-- One call of `register_participant`, read off the converted capacity. -/
theorem register_participant_eq (e : Event) (u : String) :
    e.register_participant u =
      if e.registeredUsers.length < toSizeT e.capacity then
        ({ e with registeredUsers := e.registeredUsers ++ [u] }, true,
          [Out.line "Participant registered successfully."])
      else
        ({ e with waitlist := e.waitlist ++ [u] }, false,
          [Out.line "Event is full. You've been added to the waitlist."]) := rfl

/-- A run of calls fills `registeredUsers` up to the converted capacity and puts
the rest on the waitlist; nothing else in the event changes. -/
theorem registerAll_eq (us : List String) : ∀ e : Event,
    (e.registerAll us).1 =
      { e with
        registeredUsers :=
          e.registeredUsers ++ us.take (toSizeT e.capacity - e.registeredUsers.length)
        waitlist := e.waitlist ++ us.drop (toSizeT e.capacity - e.registeredUsers.length) } ∧
    (e.registerAll us).2 =
      (List.range us.length).map
        (fun i => decide (e.registeredUsers.length + i < toSizeT e.capacity)) := by
  induction us with
  | nil => intro e; simp [Event.registerAll]
  | cons u us ih =>
    intro e
    by_cases h : e.registeredUsers.length < toSizeT e.capacity
    · have hr : e.register_participant u =
          ({ e with registeredUsers := e.registeredUsers ++ [u] }, true,
            [Out.line "Participant registered successfully."]) := by
        rw [register_participant_eq, if_pos h]
      obtain ⟨ih1, ih2⟩ := ih { e with registeredUsers := e.registeredUsers ++ [u] }
      have hk : toSizeT e.capacity - e.registeredUsers.length =
          (toSizeT e.capacity - (e.registeredUsers.length + 1)) + 1 := by omega
      refine ⟨?_, ?_⟩
      · simp only [Event.registerAll, hr, ih1]
        rw [hk]
        simp
      · simp only [Event.registerAll, hr, ih2]
        rw [List.length_cons, List.range_succ_eq_map]
        simp [h, Function.comp_def, Nat.add_assoc, Nat.add_comm 1]
    · have hr : e.register_participant u =
          ({ e with waitlist := e.waitlist ++ [u] }, false,
            [Out.line "Event is full. You've been added to the waitlist."]) := by
        rw [register_participant_eq, if_neg h]
      obtain ⟨ih1, ih2⟩ := ih { e with waitlist := e.waitlist ++ [u] }
      have hk : toSizeT e.capacity - e.registeredUsers.length = 0 := by omega
      refine ⟨?_, ?_⟩
      · simp only [Event.registerAll, hr, ih1]
        rw [hk]
        simp
      · simp only [Event.registerAll, hr, ih2]
        rw [List.length_cons, List.range_succ_eq_map]
        have hf : ∀ i, ¬ (e.registeredUsers.length + i < toSizeT e.capacity) := by
          intro i; omega
        simp [hf]

/-- C1 (capacity invariant). For an event whose capacity is positive and whose
`registeredUsers` is empty, as every constructor leaves it, and for every
sequence of `register_participant` calls, the number of entries of
`registeredUsers` is at most `capacity` after each call of the sequence (after
the first `k` calls, for every `k`), and `capacity` itself never changes. -/
theorem capacity_invariant (e : Event) (us : List String)
    (hcap : 0 < e.capacity) (hfresh : e.registeredUsers = []) (k : Nat) :
    (((e.registerAll (us.take k)).1.registeredUsers.length : Nat) : Int) ≤ e.capacity ∧
    (e.registerAll (us.take k)).1.capacity = e.capacity := by
  have h := (registerAll_eq (us.take k) e).1
  have hle := toSizeT_le_of_nonneg e.capacity (le_of_lt hcap)
  rw [h, hfresh]
  refine ⟨?_, rfl⟩
  simp only [List.nil_append, List.length_nil, Nat.sub_zero, List.length_take]
  omega

/-- Instance of C1: a seminar of capacity 2 and four registrations. -/
theorem capacity_invariant_witness :
    (((((Seminar.ctor 1 "Talk" "2024-11-15" 2 "Speaker").1.registerAll
      (["a", "b", "c", "d"].take 3)).1.registeredUsers.length : Nat) : Int) ≤
        (Seminar.ctor 1 "Talk" "2024-11-15" 2 "Speaker").1.capacity) ∧
    ((Seminar.ctor 1 "Talk" "2024-11-15" 2 "Speaker").1.registerAll
      (["a", "b", "c", "d"].take 3)).1.capacity =
        (Seminar.ctor 1 "Talk" "2024-11-15" 2 "Speaker").1.capacity :=
  capacity_invariant (Seminar.ctor 1 "Talk" "2024-11-15" 2 "Speaker").1 ["a", "b", "c", "d"]
    (by decide) rfl 3

/-- C2 (fill, then overflow). For an event with `1 ≤ capacity` (an `int`, so at
most `INT_MAX`) whose `registeredUsers` and `waitlist` are empty, as every
constructor leaves them, and usernames `us` registered in list order: the call
number `i + 1` returns true exactly when `i + 1 ≤ capacity`; afterwards
`registeredUsers` is the first `min n capacity` usernames, `waitlist` is the
remaining ones, both in call order, and their lengths add up to `n`; with
capacity 1 and two calls the results are true, then false. -/
theorem fill_then_overflow (e : Event) (us : List String)
    (h1 : 1 ≤ e.capacity) (h2 : e.capacity ≤ INT_MAX)
    (hr : e.registeredUsers = []) (hw : e.waitlist = []) :
    (e.registerAll us).2 =
      (List.range us.length).map (fun i => decide (((i + 1 : Nat) : Int) ≤ e.capacity)) ∧
    (e.registerAll us).1.registeredUsers = us.take (min us.length e.capacity.toNat) ∧
    (e.registerAll us).1.waitlist = us.drop (min us.length e.capacity.toNat) ∧
    (e.registerAll us).1.registeredUsers.length + (e.registerAll us).1.waitlist.length
      = us.length ∧
    (e.capacity = 1 → ∀ a b : String, (e.registerAll [a, b]).2 = [true, false]) := by
  have hc : toSizeT e.capacity = e.capacity.toNat :=
    toSizeT_of_int_range e.capacity (by omega) h2
  have key : ∀ vs : List String,
      (e.registerAll vs).2 =
        (List.range vs.length).map (fun i => decide (((i + 1 : Nat) : Int) ≤ e.capacity)) ∧
      (e.registerAll vs).1.registeredUsers = vs.take (min vs.length e.capacity.toNat) ∧
      (e.registerAll vs).1.waitlist = vs.drop (min vs.length e.capacity.toNat) := by
    intro vs
    obtain ⟨g1, g2⟩ := registerAll_eq vs e
    rw [g1, g2, hr, hw, hc]
    simp only [List.nil_append, List.length_nil, Nat.sub_zero, Nat.zero_add]
    refine ⟨?_, ?_, ?_⟩
    · apply List.map_congr_left
      intro i _
      congr 1
      apply propext
      constructor <;> intro h <;> omega
    · rcases Nat.le_total vs.length e.capacity.toNat with h | h
      · rw [Nat.min_eq_left h, List.take_of_length_le h, List.take_of_length_le (le_refl _)]
      · rw [Nat.min_eq_right h]
    · rcases Nat.le_total vs.length e.capacity.toNat with h | h
      · rw [Nat.min_eq_left h, List.drop_of_length_le h, List.drop_of_length_le (le_refl _)]
      · rw [Nat.min_eq_right h]
  obtain ⟨k1, k2, k3⟩ := key us
  refine ⟨k1, k2, k3, ?_, ?_⟩
  · rw [k2, k3, List.length_take, List.length_drop]
    omega
  · intro hone a b
    rw [(key [a, b]).1, hone]
    rfl

/-- Instance of C2: capacity 1, "alice" is accepted and "bob" is waitlisted. -/
theorem fill_then_overflow_witness :
    ((Workshop.ctor 1 "W" "2024-11-01" 1 "T" true).1.registerAll ["alice", "bob"]).2 =
      [true, false] ∧
    ((Workshop.ctor 1 "W" "2024-11-01" 1 "T" true).1.registerAll
      ["alice", "bob"]).1.registeredUsers = ["alice"] ∧
    ((Workshop.ctor 1 "W" "2024-11-01" 1 "T" true).1.registerAll
      ["alice", "bob"]).1.waitlist = ["bob"] :=
  have h := fill_then_overflow (Workshop.ctor 1 "W" "2024-11-01" 1 "T" true).1
    ["alice", "bob"] (by decide) (by decide) rfl rfl
  ⟨h.1, h.2.1, h.2.2.1⟩

/-- The single-step contract of `register_participant` for a capacity that is
not negative: compare the registered count with `capacity`, append to
`registeredUsers` and return true when it is smaller, append to `waitlist` and
return false otherwise; no other field changes and no duplicate check is made. -/
theorem register_participant_of_nonneg_capacity (e : Event) (u : String)
    (h0 : 0 ≤ e.capacity) (h1 : e.capacity ≤ INT_MAX) :
    (((e.registeredUsers.length : Nat) : Int) < e.capacity →
      e.register_participant u =
        ({ e with registeredUsers := e.registeredUsers ++ [u] }, true,
          [Out.line "Participant registered successfully."])) ∧
    (¬ ((e.registeredUsers.length : Nat) : Int) < e.capacity →
      e.register_participant u =
        ({ e with waitlist := e.waitlist ++ [u] }, false,
          [Out.line "Event is full. You've been added to the waitlist."])) := by
  have hc := toSizeT_of_int_range e.capacity h0 h1
  constructor
  · intro h
    rw [register_participant_eq, if_pos (by omega)]
  · intro h
    rw [register_participant_eq, if_neg (by omega)]

/-- C3 (single-step contract), failing input. A seminar created with capacity
`-1` has registered count `0`, which is not smaller than its capacity, yet the
call returns true and appends the username to `registeredUsers`, leaving the
waitlist empty: the comparison is made after converting `-1` to `size_t`. -/
theorem register_participant_negative_capacity :
    ¬ ((((Seminar.ctor 4 "Gala" "2024-12-01" (-1) "Host").1.registeredUsers.length : Nat) : Int)
        < (Seminar.ctor 4 "Gala" "2024-12-01" (-1) "Host").1.capacity) ∧
    ((Seminar.ctor 4 "Gala" "2024-12-01" (-1) "Host").1.register_participant "alice").2.1
      = true ∧
    ((Seminar.ctor 4 "Gala" "2024-12-01" (-1) "Host").1.register_participant
      "alice").1.registeredUsers = ["alice"] ∧
    ((Seminar.ctor 4 "Gala" "2024-12-01" (-1) "Host").1.register_participant
      "alice").1.waitlist = [] := by
  decide

/-! ## std::find_if -/

/-- When no element satisfies `p`, `find_if` returns `end()`. -/
theorem find_if_eq_length {α : Type} (p : α → Bool) (l : List α)
    (h : ∀ x ∈ l, p x = false) : find_if p l = l.length := by
  induction l with
  | nil => rfl
  | cons a l ih =>
    have ha : p a = false := h a (List.mem_cons_self a l)
    have hl : find_if p l = l.length := ih (fun x hx => h x (List.mem_cons_of_mem a hx))
    unfold find_if at hl ⊢
    rw [List.findIdx_cons, ha, hl]
    rfl

/-- The index returned by `find_if` is the length of the part before the first
element satisfying `p`. -/
theorem find_if_split {α : Type} (p : α → Bool) (pre : List α) (e : α) (post : List α)
    (hpre : ∀ x ∈ pre, p x = false) (he : p e = true) :
    find_if p (pre ++ e :: post) = pre.length := by
  induction pre with
  | nil =>
    unfold find_if
    rw [List.nil_append, List.findIdx_cons, he]
    rfl
  | cons a pre ih =>
    have ha : p a = false := hpre a (List.mem_cons_self a pre)
    have hl := ih (fun x hx => hpre x (List.mem_cons_of_mem a hx))
    unfold find_if at hl ⊢
    rw [List.cons_append, List.findIdx_cons, ha, hl]
    rfl

/-- A vector with an element satisfying `p` splits at the first such element. -/
theorem exists_first_split {α : Type} (p : α → Bool) (l : List α)
    (h : ∃ x ∈ l, p x = true) :
    ∃ pre e post, l = pre ++ e :: post ∧ (∀ x ∈ pre, p x = false) ∧ p e = true := by
  induction l with
  | nil =>
    obtain ⟨x, hx, _⟩ := h
    cases hx
  | cons a l ih =>
    by_cases ha : p a = true
    · exact ⟨[], a, l, rfl, ⟨fun x hx => absurd hx (List.not_mem_nil x), ha⟩⟩
    · have hex : ∃ x ∈ l, p x = true := by
        obtain ⟨x, hx, hpx⟩ := h
        rcases List.mem_cons.mp hx with rfl | hx
        · exact absurd hpx ha
        · exact ⟨x, hx, hpx⟩
      obtain ⟨pre, e, post, hs, hpre, he⟩ := ih hex
      refine ⟨a :: pre, e, post, by rw [hs]; rfl, ?_, he⟩
      intro x hx
      rcases List.mem_cons.mp hx with rfl | hx
      · simpa using ha
      · exact hpre x hx

/-- Dereferencing and overwriting the iterator returned by `find_if`. -/
theorem find_if_get_set {α : Type} (p : α → Bool) (l pre : List α) (e : α) (post : List α)
    (hs : l = pre ++ e :: post) (hpre : ∀ x ∈ pre, p x = false) (he : p e = true) :
    ∃ h : find_if p l < l.length,
      l.get ⟨find_if p l, h⟩ = e ∧ ∀ y, l.set (find_if p l) y = pre ++ y :: post := by
  subst hs
  have hit := find_if_split p pre e post hpre he
  have hlt : find_if p (pre ++ e :: post) < (pre ++ e :: post).length := by
    rw [hit]; simp
  refine ⟨hlt, ?_, ?_⟩
  · rw [List.get_eq_getElem]
    apply List.getElem_eq_iff.mpr
    show (pre ++ e :: post)[find_if p (pre ++ e :: post)]? = some e
    rw [hit, List.getElem?_append_right (le_refl _), Nat.sub_self]
    simp
  · intro y
    rw [hit]
    simp

/-- The test on the event id used by the manager's lookups. -/
theorem id_beq_false_iff (e : Event) (eventId : Int) :
    (e.id == eventId) = false ↔ e.id ≠ eventId := by
  simp

/-! ## EventManager::registerParticipant and EventManager::rateEvent -/

/-- The message of `register_participant` is never the manager's own message. -/
theorem register_participant_result (e : Event) (u : String) :
    (e.register_participant u).2 = (true, [Out.line "Participant registered successfully."]) ∨
    (e.register_participant u).2 =
      (false, [Out.line "Event is full. You've been added to the waitlist."]) := by
  rw [register_participant_eq]
  split
  · exact Or.inl rfl
  · exact Or.inr rfl

/-- The manager's call when no event has the id. -/
theorem registerParticipant_of_absent (m : EventManager) (eventId : Int) (username : String)
    (h : ∀ e ∈ m.events, e.id ≠ eventId) :
    m.registerParticipant eventId username = (m, false, [Out.line "Invalid event ID."]) := by
  have hit := find_if_eq_length (fun event : Event => event.id == eventId) m.events
    (fun x hx => (id_beq_false_iff x eventId).mpr (h x hx))
  unfold EventManager.registerParticipant
  simp only [hit, lt_irrefl, dite_false]

/-- The manager's call when the first event with the id is `e`. -/
theorem registerParticipant_of_split (m : EventManager) (eventId : Int) (username : String)
    (pre : List Event) (e : Event) (post : List Event)
    (hs : m.events = pre ++ e :: post) (hpre : ∀ x ∈ pre, x.id ≠ eventId)
    (he : e.id = eventId) :
    m.registerParticipant eventId username =
      ({ events := pre ++ (e.register_participant username).1 :: post, users := m.users },
        (e.register_participant username).2.1, (e.register_participant username).2.2) := by
  obtain ⟨hlt, hget, hset⟩ := find_if_get_set (fun event : Event => event.id == eventId)
    m.events pre e post hs (fun x hx => (id_beq_false_iff x eventId).mpr (hpre x hx))
    (by simp [he])
  unfold EventManager.registerParticipant
  simp only [dif_pos hlt, hget, hset]

/-- C4 (`EventManager::registerParticipant`). The call ends in one of three
ways, told apart by the return value and the message written: true with
"Participant registered successfully.", false with "Event is full. You've been
added to the waitlist.", or false with "Invalid event ID.". The last happens
exactly when no event has id `eventId`, and then the manager is returned
unchanged. Otherwise, with `e` the first event in insertion order whose id is
`eventId`, the result is that of `e.register_participant username`: `e` is
replaced by its new value, every other event and the user collection are the
same, and the return value and message are those of that call. -/
theorem registerParticipant_outcome (m : EventManager) (eventId : Int) (username : String) :
    ((∀ e ∈ m.events, e.id ≠ eventId) →
      m.registerParticipant eventId username = (m, false, [Out.line "Invalid event ID."])) ∧
    ((∃ e ∈ m.events, e.id = eventId) →
      ∃ pre e post, m.events = pre ++ e :: post ∧ (∀ x ∈ pre, x.id ≠ eventId) ∧
        e.id = eventId ∧
        m.registerParticipant eventId username =
          ({ events := pre ++ (e.register_participant username).1 :: post, users := m.users },
            (e.register_participant username).2.1,
            (e.register_participant username).2.2)) ∧
    ((m.registerParticipant eventId username).2.2 = [Out.line "Invalid event ID."] ↔
      ∀ e ∈ m.events, e.id ≠ eventId) ∧
    ((m.registerParticipant eventId username).2 =
        (true, [Out.line "Participant registered successfully."]) ∨
      (m.registerParticipant eventId username).2 =
        (false, [Out.line "Event is full. You've been added to the waitlist."]) ∨
      (m.registerParticipant eventId username).2 =
        (false, [Out.line "Invalid event ID."])) := by
  have hfound : (∃ e ∈ m.events, e.id = eventId) →
      ∃ pre e post, m.events = pre ++ e :: post ∧ (∀ x ∈ pre, x.id ≠ eventId) ∧
        e.id = eventId ∧
        m.registerParticipant eventId username =
          ({ events := pre ++ (e.register_participant username).1 :: post, users := m.users },
            (e.register_participant username).2.1,
            (e.register_participant username).2.2) := by
    intro hex
    obtain ⟨pre, e, post, hs, hpre, he⟩ :=
      exists_first_split (fun event : Event => event.id == eventId) m.events
        (by obtain ⟨x, hx, hid⟩ := hex; exact ⟨x, hx, by simp [hid]⟩)
    have hpre2 : ∀ x ∈ pre, x.id ≠ eventId :=
      fun x hx => (id_beq_false_iff x eventId).mp (hpre x hx)
    have he2 : e.id = eventId := by simpa using he
    exact ⟨pre, e, post, hs, hpre2, he2,
      registerParticipant_of_split m eventId username pre e post hs hpre2 he2⟩
  refine ⟨registerParticipant_of_absent m eventId username, hfound, ?_, ?_⟩
  · constructor
    · intro hout
      by_contra hne
      have hex : ∃ e ∈ m.events, e.id = eventId := by
        by_contra hno
        apply hne
        intro e he hid
        exact hno ⟨e, he, hid⟩
      obtain ⟨pre, e, post, _, _, _, hres⟩ := hfound hex
      rw [hres] at hout
      rcases register_participant_result e username with h | h
      · rw [h] at hout; exact absurd hout (by decide)
      · rw [h] at hout; exact absurd hout (by decide)
    · intro h
      rw [registerParticipant_of_absent m eventId username h]
  · by_cases hex : ∃ e ∈ m.events, e.id = eventId
    · obtain ⟨pre, e, post, _, _, _, hres⟩ := hfound hex
      rw [hres]
      rcases register_participant_result e username with h | h
      · exact Or.inl h
      · exact Or.inr (Or.inl h)
    · right; right
      rw [registerParticipant_of_absent m eventId username
        (fun e he hid => hex ⟨e, he, hid⟩)]

/-- Instance of C4 on the seed data: id 2 is the workshop, id 9 is no event. -/
theorem registerParticipant_outcome_witness :
    (seed.1.registerParticipant 9 "lavale" = (seed.1, false, [Out.line "Invalid event ID."])) ∧
    (∃ pre e post, seed.1.events = pre ++ e :: post ∧ (∀ x ∈ pre, x.id ≠ 2) ∧ e.id = 2 ∧
      seed.1.registerParticipant 2 "lavale" =
        ({ events := pre ++ (e.register_participant "lavale").1 :: post,
           users := seed.1.users },
          (e.register_participant "lavale").2.1, (e.register_participant "lavale").2.2)) :=
  ⟨(registerParticipant_outcome seed.1 9 "lavale").1 (by decide),
   (registerParticipant_outcome seed.1 2 "lavale").2.1 (by decide)⟩

/-! ## The rating map -/

/-- After `m[k] = v` the entry for `k` holds `v`. -/
theorem lookup_mapAssign_self (m : List (Int × Int)) (k v : Int) :
    List.lookup k (mapAssign m k v) = some v := by
  induction m with
  | nil => simp [mapAssign, List.lookup]
  | cons kv rest ih =>
    obtain ⟨k', v'⟩ := kv
    unfold mapAssign
    split
    · simp [List.lookup]
    · split
      · simp [List.lookup]
      · rename_i h1 h2
        have hne : (k == k') = false := by simpa using h2
        rw [List.lookup_cons, hne]
        exact ih

/-- The statement `m[k] = v` leaves the entry of every other key as it was. -/
theorem lookup_mapAssign_other (m : List (Int × Int)) (k v j : Int) (hj : j ≠ k) :
    List.lookup j (mapAssign m k v) = List.lookup j m := by
  have hjk : (j == k) = false := by simpa using hj
  induction m with
  | nil => simp [mapAssign, List.lookup, hjk]
  | cons kv rest ih =>
    obtain ⟨k', v'⟩ := kv
    unfold mapAssign
    split
    · rw [List.lookup_cons, hjk]
    · split
      · rename_i h1 h2
        subst h2
        rw [List.lookup_cons, List.lookup_cons, hjk]
      · rw [List.lookup_cons, List.lookup_cons, ih]

/-- The keys after `m[k] = v` are `k` and the keys before. -/
theorem mem_keys_mapAssign (m : List (Int × Int)) (k v j : Int)
    (h : j ∈ (mapAssign m k v).map Prod.fst) : j = k ∨ j ∈ m.map Prod.fst := by
  induction m with
  | nil =>
    simp [mapAssign] at h
    exact Or.inl h
  | cons kv rest ih =>
    obtain ⟨k', v'⟩ := kv
    unfold mapAssign at h
    split at h
    · simp only [List.map_cons, List.mem_cons] at h ⊢
      exact h
    · split at h
      · rename_i h1 h2
        simp only [List.map_cons, List.mem_cons] at h ⊢
        rcases h with h | h
        · exact Or.inl h
        · exact Or.inr (Or.inr h)
      · simp only [List.map_cons, List.mem_cons] at h ⊢
        rcases h with h | h
        · exact Or.inr (Or.inl h)
        · rcases ih h with h | h
          · exact Or.inl h
          · exact Or.inr (Or.inr h)

/-- The statement `m[k] = v` keeps the keys strictly increasing. -/
theorem mapWF_mapAssign (m : List (Int × Int)) (k v : Int) (h : MapWF m) :
    MapWF (mapAssign m k v) := by
  unfold MapWF at h ⊢
  induction m with
  | nil => simp [mapAssign]
  | cons kv rest ih =>
    obtain ⟨k', v'⟩ := kv
    rw [List.map_cons, List.pairwise_cons] at h
    obtain ⟨hhead, htail⟩ := h
    unfold mapAssign
    split
    · rename_i hlt
      rw [List.map_cons, List.pairwise_cons]
      refine ⟨?_, by rw [List.map_cons, List.pairwise_cons]; exact ⟨hhead, htail⟩⟩
      intro j hj
      rw [List.map_cons, List.mem_cons] at hj
      rcases hj with rfl | hj
      · exact hlt
      · exact lt_trans hlt (hhead j hj)
    · split
      · rename_i h1 h2
        subst h2
        rw [List.map_cons, List.pairwise_cons]
        exact ⟨hhead, htail⟩
      · rename_i h1 h2
        rw [List.map_cons, List.pairwise_cons]
        refine ⟨?_, ih htail⟩
        intro j hj
        rcases mem_keys_mapAssign rest k v j hj with rfl | hj
        · show k' < j
          omega
        · exact hhead j hj

/-- A well-formed map has no key twice. -/
theorem mapWF_nodup (m : List (Int × Int)) (h : MapWF m) : (m.map Prod.fst).Nodup := by
  unfold MapWF at h
  exact List.Pairwise.imp (fun hab => ne_of_lt hab) h

/-- The manager's rating call when no event has the id. -/
theorem rateEvent_of_absent (m : EventManager) (eventId rating : Int) (user : User)
    (h : ∀ e ∈ m.events, e.id ≠ eventId) :
    m.rateEvent eventId rating user = (m, user, [Out.line "Invalid event ID."]) := by
  have hit := find_if_eq_length (fun event : Event => event.id == eventId) m.events
    (fun x hx => (id_beq_false_iff x eventId).mpr (h x hx))
  unfold EventManager.rateEvent
  simp only [hit, lt_irrefl, dite_false]

/-- The manager's rating call when the first event with the id is `e`. -/
theorem rateEvent_of_split (m : EventManager) (eventId rating : Int) (user : User)
    (pre : List Event) (e : Event) (post : List Event)
    (hs : m.events = pre ++ e :: post) (hpre : ∀ x ∈ pre, x.id ≠ eventId)
    (he : e.id = eventId) :
    m.rateEvent eventId rating user =
      ({ events := pre ++ { e with ratings := e.ratings ++ [rating] } :: post,
         users := m.users },
        { user with eventRatings := mapAssign user.eventRatings eventId rating },
        [Out.line "Thank you for rating the event!"]) := by
  obtain ⟨hlt, hget, hset⟩ := find_if_get_set (fun event : Event => event.id == eventId)
    m.events pre e post hs (fun x hx => (id_beq_false_iff x eventId).mpr (hpre x hx))
    (by simp [he])
  unfold EventManager.rateEvent
  simp only [dif_pos hlt, hget, hset]
  rfl

/-- C5 (a failed rating changes nothing). When `eventId` is the id of no event
of the collection, `rateEvent` returns the manager as it was (so every event,
with its ratings, registeredUsers and waitlist, and the user collection), returns
the user as it was (so the rating map and the registered-events sequence), and
writes "Invalid event ID.". -/
theorem rateEvent_invalid_id_unchanged (m : EventManager) (eventId rating : Int) (user : User)
    (h : ∀ e ∈ m.events, e.id ≠ eventId) :
    (m.rateEvent eventId rating user).1 = m ∧
    (m.rateEvent eventId rating user).1.events = m.events ∧
    (m.rateEvent eventId rating user).2.1 = user ∧
    (m.rateEvent eventId rating user).2.1.eventRatings = user.eventRatings ∧
    (m.rateEvent eventId rating user).2.1.registeredEvents = user.registeredEvents ∧
    (m.rateEvent eventId rating user).2.2 = [Out.line "Invalid event ID."] := by
  rw [rateEvent_of_absent m eventId rating user h]
  exact ⟨rfl, rfl, rfl, rfl, rfl, rfl⟩

/-- Instance of C5: the seed user "lavale" rates the id 7, which no seed event
has. -/
theorem rateEvent_invalid_id_unchanged_witness :
    (seed.1.rateEvent 7 5 (User.ctor "lavale" "hillbase" false)).1 = seed.1 ∧
    (seed.1.rateEvent 7 5 (User.ctor "lavale" "hillbase" false)).2.1 =
      User.ctor "lavale" "hillbase" false ∧
    (seed.1.rateEvent 7 5 (User.ctor "lavale" "hillbase" false)).2.2 =
      [Out.line "Invalid event ID."] :=
  have h := rateEvent_invalid_id_unchanged seed.1 7 5 (User.ctor "lavale" "hillbase" false)
    (by decide)
  ⟨h.1, h.2.2.1, h.2.2.2.2.2⟩

/-- C6 (a successful rating). When some event has id `eventId`, let `e` be the
first such event in insertion order. Then `rateEvent`, for any integer `rating`
(no range check), appends `rating` at the end of `e.ratings` and changes no
other field of `e`, no other event and not the user collection; in the user it
changes the rating map only (the registered-events sequence and the other
fields are kept): the entry for `eventId` becomes `rating`, the entry of every
other key is as before, and a map with strictly increasing keys stays one, so
it has a single entry for each event id. -/
theorem rateEvent_success (m : EventManager) (eventId rating : Int) (user : User)
    (h : ∃ e ∈ m.events, e.id = eventId) :
    ∃ pre e post, m.events = pre ++ e :: post ∧ (∀ x ∈ pre, x.id ≠ eventId) ∧
      e.id = eventId ∧
      (m.rateEvent eventId rating user).1 =
        { events := pre ++ { e with ratings := e.ratings ++ [rating] } :: post,
          users := m.users } ∧
      (m.rateEvent eventId rating user).2.1 =
        { user with eventRatings := (m.rateEvent eventId rating user).2.1.eventRatings } ∧
      List.lookup eventId (m.rateEvent eventId rating user).2.1.eventRatings = some rating ∧
      (∀ k, k ≠ eventId →
        List.lookup k (m.rateEvent eventId rating user).2.1.eventRatings =
          List.lookup k user.eventRatings) ∧
      (∀ k, k ∈ (m.rateEvent eventId rating user).2.1.eventRatings.map Prod.fst →
        k = eventId ∨ k ∈ user.eventRatings.map Prod.fst) ∧
      (MapWF user.eventRatings →
        MapWF (m.rateEvent eventId rating user).2.1.eventRatings ∧
        ((m.rateEvent eventId rating user).2.1.eventRatings.map Prod.fst).Nodup) ∧
      (m.rateEvent eventId rating user).2.2 = [Out.line "Thank you for rating the event!"] := by
  obtain ⟨pre, e, post, hs, hpre, he⟩ :=
    exists_first_split (fun event : Event => event.id == eventId) m.events
      (by obtain ⟨x, hx, hid⟩ := h; exact ⟨x, hx, by simp [hid]⟩)
  have hpre2 : ∀ x ∈ pre, x.id ≠ eventId :=
    fun x hx => (id_beq_false_iff x eventId).mp (hpre x hx)
  have he2 : e.id = eventId := by simpa using he
  refine ⟨pre, e, post, hs, hpre2, he2, ?_⟩
  rw [rateEvent_of_split m eventId rating user pre e post hs hpre2 he2]
  refine ⟨rfl, rfl, lookup_mapAssign_self _ _ _, ?_, ?_, ?_, rfl⟩
  · intro k hk
    exact lookup_mapAssign_other _ _ _ _ hk
  · intro k hk
    exact mem_keys_mapAssign _ _ _ _ hk
  · intro hwf
    exact ⟨mapWF_mapAssign _ _ _ hwf, mapWF_nodup _ (mapWF_mapAssign _ _ _ hwf)⟩

/-- Instance of C6: on the seed data a user who rated event 2 with 3 rates it
again with 5; the workshop gets the rating 5 and the map entry is overwritten. -/
theorem rateEvent_success_witness :
    ∃ pre e post, seed.1.events = pre ++ e :: post ∧ (∀ x ∈ pre, x.id ≠ 2) ∧ e.id = 2 ∧
      (seed.1.rateEvent 2 5 ((User.ctor "lavale" "hillbase" false).rateEvent 2 3)).1 =
        { events := pre ++ { e with ratings := e.ratings ++ [5] } :: post,
          users := seed.1.users } ∧
      List.lookup 2
        (seed.1.rateEvent 2 5
          ((User.ctor "lavale" "hillbase" false).rateEvent 2 3)).2.1.eventRatings = some 5 :=
  have ⟨pre, e, post, h1, h2, h3, h4, _, h6, _⟩ :=
    rateEvent_success seed.1 2 5 ((User.ctor "lavale" "hillbase" false).rateEvent 2 3)
      (by decide)
  ⟨pre, e, post, h1, h2, h3, h4, h6⟩

/-! ## EventManager::authenticateUser -/

/-- The predicate of the `find_if` in `authenticateUser`, as a proposition. -/
theorem credentials_test_iff (u : User) (username password : String) :
    (u.getUsername == username && u.authenticate password) = true ↔
      (u.username = username ∧ u.password = password) := by
  simp [User.getUsername, User.authenticate]

/-- The predicate of the `find_if` in `authenticateUser`, negated. -/
theorem credentials_test_false_iff (u : User) (username password : String) :
    (u.getUsername == username && u.authenticate password) = false ↔
      ¬ (u.username = username ∧ u.password = password) := by
  rw [← credentials_test_iff, Bool.not_eq_true]

/-- C8 (`EventManager::authenticateUser`). The call returns the manager as it
was. It returns a pointer to the user at index `i` exactly when that user is
the first one in insertion order whose username equals `username` and whose
stored password equals `password`; it returns `nullptr` exactly when no user
has both, whether the username is unknown or only the password is wrong. On the
seed users, ("sit", "pune1234") returns the first user, who is the admin
"sit", and ("sit", "wrong") and ("nobody", "x") both return `nullptr`. -/
theorem authenticateUser_first_match (m : EventManager) (username password : String) :
    (m.authenticateUser username password).1 = m ∧
    (∀ i, (m.authenticateUser username password).2 = some i ↔
      ∃ pre u post, m.users = pre ++ u :: post ∧ pre.length = i ∧ m.users[i]? = some u ∧
        u.username = username ∧ u.password = password ∧
        ∀ x ∈ pre, ¬ (x.username = username ∧ x.password = password)) ∧
    ((m.authenticateUser username password).2 = none ↔
      ∀ u ∈ m.users, ¬ (u.username = username ∧ u.password = password)) ∧
    (seed.1.authenticateUser "sit" "pune1234").2 = some 0 ∧
    seed.1.users[0]? = some (User.ctor "sit" "pune1234" true) ∧
    (User.ctor "sit" "pune1234" true).isAdminUser = true ∧
    (seed.1.authenticateUser "sit" "wrong").2 = none ∧
    (seed.1.authenticateUser "nobody" "x").2 = none := by
  refine ⟨rfl, ?_, ?_, by decide, by decide, by decide, by decide, by decide⟩
  · intro i
    constructor
    · intro h
      unfold EventManager.authenticateUser at h
      simp only at h
      split at h
      · rename_i hlt
        have hi : find_if (fun u : User => u.getUsername == username && u.authenticate password)
            m.users = i := by simpa using h
        have hex : ∃ x ∈ m.users,
            (fun u : User => u.getUsername == username && u.authenticate password) x = true :=
          List.findIdx_lt_length.mp hlt
        obtain ⟨pre, u, post, hs, hpre, hu⟩ := exists_first_split _ m.users hex
        have hit := find_if_split _ pre u post hpre hu
        rw [← hs, hi] at hit
        obtain ⟨hu1, hu2⟩ := (credentials_test_iff u username password).mp hu
        refine ⟨pre, u, post, hs, hit.symm, ?_, hu1, hu2, ?_⟩
        · rw [hs, hit, List.getElem?_append_right (le_refl _), Nat.sub_self]
          simp
        · intro x hx
          exact (credentials_test_false_iff x username password).mp (hpre x hx)
      · cases h
    · rintro ⟨pre, u, post, hs, hlen, _, hu1, hu2, hpre⟩
      have hit := find_if_split
        (fun u : User => u.getUsername == username && u.authenticate password) pre u post
        (fun x hx => (credentials_test_false_iff x username password).mpr (hpre x hx))
        ((credentials_test_iff u username password).mpr ⟨hu1, hu2⟩)
      rw [← hs] at hit
      unfold EventManager.authenticateUser
      simp only [hit, hlen]
      rw [if_pos]
      rw [← hlen, hs]
      simp
  · constructor
    · intro h u hu
      unfold EventManager.authenticateUser at h
      simp only at h
      split at h
      · cases h
      · rename_i hlt
        have hall := List.findIdx_eq_length.mp
          (Nat.le_antisymm (List.findIdx_le_length _) (Nat.le_of_not_lt hlt))
        exact (credentials_test_false_iff u username password).mp (hall u hu)
    · intro h
      have hit := find_if_eq_length
        (fun u : User => u.getUsername == username && u.authenticate password) m.users
        (fun x hx => (credentials_test_false_iff x username password).mpr (h x hx))
      unfold EventManager.authenticateUser
      simp only [hit, lt_irrefl, if_false]

/-! ## std::string::find and EventManager::searchEvents -/

/-- When `q` does not occur in the text, the search loop returns `npos`. -/
theorem findAt_of_absent (q : List Char) : ∀ (s : List Char) (i : Nat),
    ¬ q <:+: s → findAt q s i = npos := by
  intro s
  induction s with
  | nil =>
    intro i h
    have hp : q.isPrefixOf [] = false := by
      rw [Bool.eq_false_iff]
      intro hq
      exact h (List.isPrefixOf_iff_prefix.mp hq).isInfix
    simp [findAt, hp]
  | cons c s ih =>
    intro i h
    rw [List.infix_cons_iff, not_or] at h
    have hp : q.isPrefixOf (c :: s) = false := by
      rw [Bool.eq_false_iff]
      intro hq
      exact h.1 (List.isPrefixOf_iff_prefix.mp hq)
    unfold findAt
    rw [hp]
    simpa using ih (i + 1) h.2

/-- When `q` occurs in the text, the search loop returns an index inside it. -/
theorem findAt_of_occurs (q : List Char) : ∀ (s : List Char) (i : Nat),
    q <:+: s → i ≤ findAt q s i ∧ findAt q s i ≤ i + s.length := by
  intro s
  induction s with
  | nil =>
    intro i h
    have hp : q.isPrefixOf [] = true :=
      List.isPrefixOf_iff_prefix.mpr (by rw [List.infix_nil.mp h])
    simp [findAt, hp]
  | cons c s ih =>
    intro i h
    by_cases hp : q.isPrefixOf (c :: s) = true
    · unfold findAt
      rw [hp]
      simp
    · have hinf : q <:+: s := by
        rcases List.infix_cons_iff.mp h with h1 | h1
        · exact absurd (List.isPrefixOf_iff_prefix.mpr h1) hp
        · exact h1
      obtain ⟨h1, h2⟩ := ih (i + 1) hinf
      have hp2 : q.isPrefixOf (c :: s) = false := Bool.eq_false_iff.mpr hp
      unfold findAt
      rw [hp2]
      simp only [Bool.false_eq_true, if_false, List.length_cons]
      omega

/-- For a text shorter than `npos`, `find` differs from `npos` exactly when the
query is a contiguous part of the text. -/
theorem find_ne_npos_iff (s q : List Char) (h : s.length < npos) :
    (find s q != npos) = true ↔ q <:+: s := by
  unfold find
  constructor
  · intro hne
    by_contra hq
    rw [findAt_of_absent q s 0 hq] at hne
    simp at hne
  · intro hq
    have h2 := (findAt_of_occurs q s 0 hq).2
    simp only [bne_iff_ne, ne_eq]
    omega

/-- Every category label is shorter than `npos`. -/
theorem getCategoryString_length (c : EventCategory) :
    (Event.getCategoryString c).data.length < npos := by
  cases c <;> decide

/-- The condition of the search, for an event whose name and date are shorter
than `npos`. -/
theorem searchMatches_iff (query : String) (e : Event)
    (hn : e.name.length < npos) (hd : e.date.length < npos) :
    searchMatches query e = true ↔
      (query.data <:+: e.name.data ∨ query.data <:+: e.date.data ∨
        query.data <:+: (Event.getCategoryString e.category).data) := by
  unfold searchMatches
  rw [Bool.or_eq_true, Bool.or_eq_true, find_ne_npos_iff _ _ hn, find_ne_npos_iff _ _ hd,
    find_ne_npos_iff _ _ (getCategoryString_length e.category), or_assoc]

/-- The events shown by an output that is a concatenation. -/
theorem shown_append (a b : List Out) : shown (a ++ b) = shown a ++ shown b := by
  induction a with
  | nil => rfl
  | cons x a ih =>
    cases x with
    | line s => simpa [shown] using ih
    | displayInfo e => simp [shown, ih]

/-- The block printed for each event of a list. -/
theorem shown_blocks (l : List Event) :
    shown (l.flatMap (fun e => [Out.displayInfo e, Out.line "------------------------"])) = l := by
  induction l with
  | nil => rfl
  | cons e l ih =>
    rw [List.flatMap_cons, shown_append, ih]
    rfl

/-- The loop of `searchEvents`: the output grows by one block per matching
event, in order, and the flag records whether there was one. -/
theorem searchEvents_loop (query : String) : ∀ (l : List Event) (acc : List Out × Bool),
    l.foldl
      (fun (acc : List Out × Bool) event =>
        if searchMatches query event then
          (acc.1 ++ [Out.displayInfo event, Out.line "------------------------"], true)
        else acc) acc =
    (acc.1 ++ (l.filter (searchMatches query)).flatMap
        (fun e => [Out.displayInfo e, Out.line "------------------------"]),
      acc.2 || !(l.filter (searchMatches query)).isEmpty) := by
  intro l
  induction l with
  | nil => intro acc; simp
  | cons e l ih =>
    intro acc
    rw [List.foldl_cons, ih]
    by_cases h : searchMatches query e = true
    · simp [h, List.filter_cons]
    · have h2 : searchMatches query e = false := by simpa using h
      simp [h2, List.filter_cons]

/-- The whole output of `searchEvents`. -/
theorem searchEvents_eq (m : EventManager) (query : String) :
    m.searchEvents query =
      (m, Out.line ("Search results for '" ++ query ++ "':") ::
        ((m.events.filter (searchMatches query)).flatMap
          (fun e => [Out.displayInfo e, Out.line "------------------------"]) ++
        if (m.events.filter (searchMatches query)).isEmpty then
          [Out.line "No events found matching the query."] else [])) := by
  unfold EventManager.searchEvents
  simp only [searchEvents_loop]
  cases h : (m.events.filter (searchMatches query)).isEmpty <;> simp [h]

/-- C9 (`EventManager::searchEvents`). For events whose name and date are
shorter than `npos` (every `std::string` is), the search returns the manager as
it was and shows exactly the events for which the query is a contiguous,
character-for-character part of the name, of the date string or of the category
label, each once and in insertion order; the output is the header line, one
block per selected event and, when no event is selected, the line "No events
found matching the query.". On the seed events the query "Web" shows exactly
the workshop "Web Development" and the query "zzz" shows nothing. -/
theorem searchEvents_selects (m : EventManager) (query : String)
    (hlen : ∀ e ∈ m.events, e.name.length < npos ∧ e.date.length < npos) :
    (m.searchEvents query).1 = m ∧
    shown (m.searchEvents query).2 =
      m.events.filter (fun e => decide
        (query.data <:+: e.name.data ∨ query.data <:+: e.date.data ∨
          query.data <:+: (Event.getCategoryString e.category).data)) ∧
    (m.searchEvents query).2 =
      Out.line ("Search results for '" ++ query ++ "':") ::
        ((shown (m.searchEvents query).2).flatMap
          (fun e => [Out.displayInfo e, Out.line "------------------------"]) ++
        if (shown (m.searchEvents query).2).isEmpty then
          [Out.line "No events found matching the query."] else []) ∧
    ((∀ e ∈ m.events, ¬ (query.data <:+: e.name.data ∨ query.data <:+: e.date.data ∨
          query.data <:+: (Event.getCategoryString e.category).data)) →
      (m.searchEvents query).2 =
        [Out.line ("Search results for '" ++ query ++ "':"),
         Out.line "No events found matching the query."]) ∧
    shown (seed.1.searchEvents "Web").2 =
      [(Workshop.ctor 2 "Web Development" "2024-11-01" 50 "Full-stack JavaScript" true).1] ∧
    shown (seed.1.searchEvents "zzz").2 = [] ∧
    (seed.1.searchEvents "zzz").2 =
      [Out.line "Search results for 'zzz':", Out.line "No events found matching the query."] := by
  have hfilter : m.events.filter (searchMatches query) =
      m.events.filter (fun e => decide
        (query.data <:+: e.name.data ∨ query.data <:+: e.date.data ∨
          query.data <:+: (Event.getCategoryString e.category).data)) := by
    apply List.filter_congr
    intro e he
    rw [Bool.eq_iff_iff, searchMatches_iff query e (hlen e he).1 (hlen e he).2,
      decide_eq_true_iff]
  have hshown : shown (m.searchEvents query).2 = m.events.filter (searchMatches query) := by
    rw [searchEvents_eq]
    simp only [shown]
    rw [shown_append, shown_blocks]
    cases (m.events.filter (searchMatches query)).isEmpty <;> simp [shown]
  refine ⟨by rw [searchEvents_eq], by rw [hshown, hfilter], ?_, ?_, by decide, by decide,
    by decide⟩
  · rw [hshown]
    rw [searchEvents_eq]
  · intro hnone
    have hnil : m.events.filter (searchMatches query) = [] := by
      rw [hfilter, List.filter_eq_nil_iff]
      intro e he
      simpa using hnone e he
    rw [searchEvents_eq, hnil]
    rfl

/-- Instance of C9: the query "2024-11" on the seed events selects the seminar
and the workshop, in that order. -/
theorem searchEvents_selects_witness :
    shown (seed.1.searchEvents "2024-11").2 =
      seed.1.events.filter (fun e => decide
        ("2024-11".data <:+: e.name.data ∨ "2024-11".data <:+: e.date.data ∨
          "2024-11".data <:+: (Event.getCategoryString e.category).data)) :=
  (searchEvents_selects seed.1 "2024-11" (by decide)).2.1

/-! ## User::trim -/

/-- A text splits into a run of `c` and a rest that does not start with `c`. -/
theorem split_leading (c : Char) (s : List Char) :
    ∃ pre rest, s = pre ++ rest ∧ (∀ x ∈ pre, x = c) ∧ rest.head? ≠ some c := by
  induction s with
  | nil => exact ⟨[], [], rfl, fun x hx => absurd hx (List.not_mem_nil x), by simp⟩
  | cons a s ih =>
    by_cases ha : a = c
    · obtain ⟨pre, rest, hs, hpre, hrest⟩ := ih
      refine ⟨a :: pre, rest, by rw [hs]; rfl, ?_, hrest⟩
      intro x hx
      rcases List.mem_cons.mp hx with rfl | hx
      · exact ha
      · exact hpre x hx
    · exact ⟨[], a :: s, rfl, fun x hx => absurd hx (List.not_mem_nil x), by simpa using ha⟩

/-- A text splits into a rest that does not end with `c` and a run of `c`. -/
theorem split_trailing (c : Char) (s : List Char) :
    ∃ rest suf, s = rest ++ suf ∧ (∀ x ∈ suf, x = c) ∧ rest.getLast? ≠ some c := by
  obtain ⟨pre, rest, hs, hpre, hrest⟩ := split_leading c s.reverse
  refine ⟨rest.reverse, pre.reverse, ?_, ?_, ?_⟩
  · rw [← List.reverse_append, ← hs, List.reverse_reverse]
  · intro x hx
    exact hpre x (List.mem_reverse.mp hx)
  · rw [List.getLast?_reverse]
    exact hrest

/-- A text is either made of `c` only, or a run of `c`, a non-empty middle that
neither starts nor ends with `c`, and a run of `c`. -/
theorem split_both (c : Char) (s : List Char) :
    (∀ x ∈ s, x = c) ∨
    ∃ pre mid suf, s = pre ++ mid ++ suf ∧ (∀ x ∈ pre, x = c) ∧ (∀ x ∈ suf, x = c) ∧
      mid ≠ [] ∧ mid.head? ≠ some c ∧ mid.getLast? ≠ some c := by
  obtain ⟨pre, rest, hs, hpre, hrest⟩ := split_leading c s
  obtain ⟨mid, suf, hr, hsuf, hmid⟩ := split_trailing c rest
  by_cases hnil : mid = []
  · left
    intro x hx
    rw [hs, hr, hnil, List.nil_append, List.mem_append] at hx
    rcases hx with hx | hx
    · exact hpre x hx
    · exact hsuf x hx
  · right
    refine ⟨pre, mid, suf, by rw [hs, hr, List.append_assoc], hpre, hsuf, hnil, ?_, hmid⟩
    cases mid with
    | nil => exact absurd rfl hnil
    | cons a mid' =>
      rw [hr] at hrest
      simpa using hrest

/-- The index of the first character other than `c` in a split text. -/
theorem findIdx_ne_of_parts (c : Char) (pre mid suf : List Char)
    (hpre : ∀ x ∈ pre, x = c) (hmid : mid ≠ []) (hhead : mid.head? ≠ some c) :
    (pre ++ mid ++ suf).findIdx (fun x => x != c) = pre.length := by
  cases mid with
  | nil => exact absurd rfl hmid
  | cons a mid' =>
    have ha : a ≠ c := by simpa using hhead
    have h := find_if_split (fun x : Char => x != c) pre a (mid' ++ suf)
      (fun x hx => by simp [hpre x hx]) (by simpa using ha)
    unfold find_if at h
    rw [List.append_assoc, List.cons_append]
    exact h

/-- The index, from the end, of the last character other than `c`. -/
theorem findIdx_ne_reverse_of_parts (c : Char) (pre mid suf : List Char)
    (hsuf : ∀ x ∈ suf, x = c) (hmid : mid ≠ []) (hlast : mid.getLast? ≠ some c) :
    (pre ++ mid ++ suf).reverse.findIdx (fun x => x != c) = suf.length := by
  have h := findIdx_ne_of_parts c suf.reverse mid.reverse pre.reverse
    (fun x hx => hsuf x (List.mem_reverse.mp hx))
    (by simpa using hmid)
    (by rw [List.head?_reverse]; exact hlast)
  rw [List.length_reverse] at h
  rw [← h]
  simp [List.append_assoc]

/-- The two searches of `trim` on a text made of `c` only return `npos`. -/
theorem find_first_not_of_all (c : Char) (s : List Char) (h : ∀ x ∈ s, x = c) :
    find_first_not_of s c = npos := by
  have hidx : s.findIdx (fun x => x != c) = s.length :=
    List.findIdx_eq_length.mpr (fun x hx => by simp [h x hx])
  unfold find_first_not_of
  simp only [hidx, lt_irrefl, if_false]

/-- The search `find_first_not_of` on a split text. -/
theorem find_first_not_of_parts (c : Char) (pre mid suf : List Char)
    (hpre : ∀ x ∈ pre, x = c) (hmid : mid ≠ []) (hhead : mid.head? ≠ some c) :
    find_first_not_of (pre ++ mid ++ suf) c = pre.length := by
  have hpos : 0 < mid.length := List.length_pos.mpr hmid
  unfold find_first_not_of
  simp only [findIdx_ne_of_parts c pre mid suf hpre hmid hhead]
  rw [if_pos]
  simp only [List.length_append]
  omega

/-- The search `find_last_not_of` on a split text. -/
theorem find_last_not_of_parts (c : Char) (pre mid suf : List Char)
    (hsuf : ∀ x ∈ suf, x = c) (hmid : mid ≠ []) (hlast : mid.getLast? ≠ some c) :
    find_last_not_of (pre ++ mid ++ suf) c = pre.length + mid.length - 1 := by
  have hpos : 0 < mid.length := List.length_pos.mpr hmid
  unfold find_last_not_of
  simp only [findIdx_ne_reverse_of_parts c pre mid suf hsuf hmid hlast]
  rw [if_pos]
  · simp only [List.length_append]
    omega
  · simp only [List.length_append]
    omega

/-- The function `trim` on a text made of spaces only. -/
theorem trim_of_all_spaces (s : String) (h : ∀ x ∈ s.data, x = ' ') :
    User.trim s = some "" := by
  unfold User.trim
  simp only [find_first_not_of_all ' ' s.data h, if_true]

/-- The function `trim` on a split text shorter than `npos`: the middle. -/
theorem trim_of_parts (s : String) (pre mid suf : List Char)
    (hs : s.data = pre ++ mid ++ suf) (hlen : s.length < npos)
    (hpre : ∀ x ∈ pre, x = ' ') (hsuf : ∀ x ∈ suf, x = ' ')
    (hmid : mid ≠ []) (hhead : mid.head? ≠ some ' ') (hlast : mid.getLast? ≠ some ' ') :
    User.trim s = some ⟨mid⟩ := by
  have hpos : 0 < mid.length := List.length_pos.mpr hmid
  have hl : pre.length + mid.length + suf.length < npos := by
    have : s.length = s.data.length := rfl
    rw [this, hs, List.length_append, List.length_append] at hlen
    exact hlen
  have hnpos : npos = 18446744073709551615 := by decide
  rw [hnpos] at hl
  unfold User.trim
  simp only [hs, find_first_not_of_parts ' ' pre mid suf hpre hmid hhead,
    find_last_not_of_parts ' ' pre mid suf hsuf hmid hlast]
  have hne : pre.length ≠ npos := by rw [hnpos]; omega
  rw [if_neg hne]
  have hsz : sizeAdd (sizeSub (pre.length + mid.length - 1) pre.length) 1 = mid.length := by
    unfold sizeAdd sizeSub SIZE_MOD
    norm_num
    omega
  rw [hsz]
  unfold substr
  rw [if_neg (by simp only [List.length_append]; omega)]
  simp [List.append_assoc]

/-- The specification-side function on a text made of `c` only. -/
theorem stripChar_of_all (c : Char) (s : List Char) (h : ∀ x ∈ s, x = c) :
    stripChar c s = [] := by
  unfold stripChar
  have hd : s.dropWhile (fun x => x == c) = [] :=
    List.dropWhile_eq_nil_iff.mpr (fun x hx => by simp [h x hx])
  rw [hd]
  exact List.rdropWhile_nil _

/-- The specification-side function on a split text: the middle. -/
theorem stripChar_of_parts (c : Char) (pre mid suf : List Char)
    (hpre : ∀ x ∈ pre, x = c) (hsuf : ∀ x ∈ suf, x = c)
    (hmid : mid ≠ []) (hhead : mid.head? ≠ some c) (hlast : mid.getLast? ≠ some c) :
    stripChar c (pre ++ mid ++ suf) = mid := by
  unfold stripChar
  have hd : (pre ++ mid ++ suf).dropWhile (fun x => x == c) = mid ++ suf := by
    rw [List.append_assoc, List.dropWhile_append_of_pos (fun x hx => by simp [hpre x hx])]
    cases mid with
    | nil => exact absurd rfl hmid
    | cons a mid' =>
      have ha : a ≠ c := by simpa using hhead
      rw [List.cons_append, List.dropWhile_cons_of_neg (by simpa using ha)]
  rw [hd]
  unfold List.rdropWhile
  rw [List.reverse_append, List.dropWhile_append_of_pos
    (fun x hx => by simp [hsuf x (List.mem_reverse.mp hx)])]
  have hr : mid.reverse ≠ [] := by simpa using hmid
  have hh : mid.reverse.head? ≠ some c := by rw [List.head?_reverse]; exact hlast
  cases hm : mid.reverse with
  | nil => exact absurd hm hr
  | cons b rest =>
    rw [hm] at hh
    have hb : b ≠ c := by simpa using hh
    rw [List.dropWhile_cons_of_neg (by simpa using hb), ← hm, List.reverse_reverse]

/-- C10 (`User::trim`). For every string shorter than `npos` (every
`std::string` is), `trim` returns normally and its result is the text without
its longest prefix and longest suffix of space characters; it is empty when the
text is empty or all spaces; what is removed is spaces only, so tabs, newlines
and interior spaces stay; the result neither starts nor ends with a space and
`trim` maps it to itself; a text that neither starts nor ends with a space is
returned as it is. On "  bob  " the result is "bob", on "   " it is "". -/
theorem trim_strips_spaces (s : String) (hlen : s.length < npos) :
    User.trim s = some ⟨stripChar ' ' s.data⟩ ∧
    ((∀ x ∈ s.data, x = ' ') → User.trim s = some "") ∧
    (∃ t pre suf, User.trim s = some t ∧ s.data = pre ++ t.data ++ suf ∧
      (∀ x ∈ pre, x = ' ') ∧ (∀ x ∈ suf, x = ' ') ∧
      t.data.head? ≠ some ' ' ∧ t.data.getLast? ≠ some ' ' ∧ User.trim t = some t) ∧
    (s.data.head? ≠ some ' ' → s.data.getLast? ≠ some ' ' → User.trim s = some s) ∧
    User.trim "  bob  " = some "bob" ∧
    User.trim "   " = some "" ∧
    User.trim "" = some "" ∧
    User.trim " \t a b\n " = some "\t a b\n" := by
  have hnil : ∀ x ∈ ([] : List Char), x = ' ' := fun x hx => absurd hx (List.not_mem_nil x)
  refine ⟨?_, trim_of_all_spaces s, ?_, ?_, by decide, by decide, by decide, by decide⟩
  · rcases split_both ' ' s.data with hall | ⟨pre, mid, suf, hs, hpre, hsuf, hmid, hh, hl⟩
    · rw [trim_of_all_spaces s hall, stripChar_of_all ' ' s.data hall]
    · rw [trim_of_parts s pre mid suf hs hlen hpre hsuf hmid hh hl, hs,
        stripChar_of_parts ' ' pre mid suf hpre hsuf hmid hh hl]
  · rcases split_both ' ' s.data with hall | ⟨pre, mid, suf, hs, hpre, hsuf, hmid, hh, hl⟩
    · refine ⟨"", s.data, [], trim_of_all_spaces s hall, ?_, hall, hnil, ?_, ?_,
        trim_of_all_spaces "" hnil⟩
      · show s.data = s.data ++ [] ++ []
        simp
      · show ([] : List Char).head? ≠ some ' '
        simp
      · show ([] : List Char).getLast? ≠ some ' '
        simp
    · have hmidlen : (String.mk mid).length < npos := by
        have h1 : s.length = s.data.length := rfl
        have h2 : (String.mk mid).length = mid.length := rfl
        rw [h1, hs, List.length_append, List.length_append] at hlen
        rw [h2]
        omega
      refine ⟨⟨mid⟩, pre, suf, trim_of_parts s pre mid suf hs hlen hpre hsuf hmid hh hl, hs,
        hpre, hsuf, hh, hl, ?_⟩
      exact trim_of_parts ⟨mid⟩ [] mid [] (by simp) hmidlen hnil hnil hmid hh hl
  · intro hh hl
    by_cases hempty : s.data = []
    · have hall : ∀ x ∈ s.data, x = ' ' := by rw [hempty]; exact hnil
      rw [trim_of_all_spaces s hall]
      congr 1
      exact String.ext hempty.symm
    · exact trim_of_parts s [] s.data [] (by simp) hlen hnil hnil hempty hh hl

/-- Instance of C10: the text " a  b " keeps its interior spaces. -/
theorem trim_strips_spaces_witness :
    User.trim " a  b " = some ⟨stripChar ' ' " a  b ".data⟩ :=
  (trim_strips_spaces " a  b " (by decide)).1

/-! ## The effect of one pass of the loop -/

/-- A vector splits at a valid index, and overwriting the element there
replaces the middle of the split. -/
theorem split_at_index {α : Type} (l : List α) (i : Nat) (x : α) (h : l[i]? = some x) :
    ∃ a b, l = a ++ x :: b ∧ a.length = i ∧ ∀ y, l.set i y = a ++ y :: b := by
  induction l generalizing i with
  | nil => simp at h
  | cons c l ih =>
    cases i with
    | zero =>
      have hc : c = x := by simpa using h
      subst hc
      exact ⟨[], l, rfl, rfl, fun y => rfl⟩
    | succ j =>
      have hj : l[j]? = some x := by simpa using h
      obtain ⟨a, b, hl, hlen, hset⟩ := ih j hj
      refine ⟨c :: a, b, by rw [hl]; rfl, by simp [hlen], ?_⟩
      intro y
      rw [List.set_cons_succ, hset y]
      rfl

/-- What `addNewEvent` does: nothing to the manager and the counter, or it
adds one new event that has the current counter as id, the capacity read and
three empty vectors, and increments the counter. -/
theorem addNewEvent_cases (m : EventManager) (nextId : Int) (inp : NewEventInput) :
    ((m.addNewEvent nextId inp).1 = m ∧ (m.addNewEvent nextId inp).2.1 = nextId) ∨
    ∃ e : Event, e.id = nextId ∧ e.capacity = inp.capacity ∧ e.registeredUsers = [] ∧
      e.waitlist = [] ∧ e.ratings = [] ∧
      (m.addNewEvent nextId inp).1 = { events := m.events ++ [e], users := m.users } ∧
      (m.addNewEvent nextId inp).2.1 = nextId + 1 := by
  unfold EventManager.addNewEvent
  cases hcat : parseCategory inp.categoryInput with
  | none => exact Or.inl ⟨rfl, rfl⟩
  | some category =>
    right
    cases category with
    | ACADEMIC =>
      exact ⟨(Seminar.ctor nextId inp.name inp.date inp.capacity inp.speaker).1,
        rfl, rfl, rfl, rfl, rfl, rfl, rfl⟩
    | CULTURAL =>
      exfalso
      unfold parseCategory at hcat
      split at hcat
      · cases hcat
      · split at hcat
        · cases hcat
        · split at hcat
          · cases hcat
          · cases hcat
    | TECHNICAL =>
      exact ⟨(Workshop.ctor nextId inp.name inp.date inp.capacity inp.topic inp.isOnline).1,
        rfl, rfl, rfl, rfl, rfl, rfl, rfl⟩
    | SPORTS =>
      exact ⟨(SportsEvent.ctor nextId inp.name inp.date inp.capacity inp.sportType).1,
        rfl, rfl, rfl, rfl, rfl, rfl, rfl⟩

/-- The effect of the `switch` of `main`. -/
theorem menuStep_effect (s : Shell) (cur : Nat) (user : User) (mi : MenuInput)
    (hcur : s.currentUser = some cur) (huser : s.manager.users[cur]? = some user) :
    Effect s (Input.menu mi) (menuStep s cur user mi).1 := by
  obtain ⟨ua, ub, hu, hlen, hset⟩ := split_at_index s.manager.users cur user huser
  have hcur2 : s.currentUser = some ua.length := by rw [hlen]; exact hcur
  unfold menuStep
  by_cases h1 : mi.choice = 1
  · rw [if_pos h1]
    exact Effect.same rfl rfl
  rw [if_neg h1]
  by_cases h2 : mi.choice = 2
  · rw [if_pos h2]
    by_cases hex : ∃ e ∈ s.manager.events, e.id = mi.eventId
    · obtain ⟨pre, e, post, hs, hpre, he⟩ :=
        exists_first_split (fun event : Event => event.id == mi.eventId) s.manager.events
          (by obtain ⟨x, hx, hid⟩ := hex; exact ⟨x, hx, by simp [hid]⟩)
      have hpre2 : ∀ x ∈ pre, x.id ≠ mi.eventId :=
        fun x hx => (id_beq_false_iff x mi.eventId).mp (hpre x hx)
      have he2 : e.id = mi.eventId := by simpa using he
      have hreg := registerParticipant_of_split s.manager mi.eventId user.getUsername
        pre e post hs hpre2 he2
      by_cases hroom : e.registeredUsers.length < toSizeT e.capacity
      · have hr : e.register_participant user.getUsername =
            ({ e with registeredUsers := e.registeredUsers ++ [user.getUsername] }, true,
              [Out.line "Participant registered successfully."]) := by
          rw [register_participant_eq, if_pos hroom]
        rw [hr] at hreg
        simp only [hreg, if_true]
        exact Effect.accepted pre e post ua user ub mi rfl h2 hcur2 hs hu hpre2 he2 hroom
          (by simp only [hset]; rfl) rfl
      · have hr : e.register_participant user.getUsername =
            ({ e with waitlist := e.waitlist ++ [user.getUsername] }, false,
              [Out.line "Event is full. You've been added to the waitlist."]) := by
          rw [register_participant_eq, if_neg hroom]
        rw [hr] at hreg
        simp only [hreg, Bool.false_eq_true, if_false]
        exact Effect.waitlisted pre e post ua user ub mi rfl h2 hcur2 hs hu hpre2 he2 hroom
          rfl rfl
    · have habs := registerParticipant_of_absent s.manager mi.eventId user.getUsername
        (fun e he hid => hex ⟨e, he, hid⟩)
      simp only [habs, Bool.false_eq_true, if_false]
      exact Effect.same rfl rfl
  rw [if_neg h2]
  by_cases h3 : mi.choice = 3
  · rw [if_pos h3]
    exact Effect.same (by rw [searchEvents_eq]) rfl
  rw [if_neg h3]
  by_cases h4 : mi.choice = 4
  · rw [if_pos h4]
    by_cases hrange : mi.rating ≥ 1 ∧ mi.rating ≤ 5
    · rw [if_pos hrange]
      by_cases hex : ∃ e ∈ s.manager.events, e.id = mi.eventId
      · obtain ⟨pre, e, post, hs, hpre, he⟩ :=
          exists_first_split (fun event : Event => event.id == mi.eventId) s.manager.events
            (by obtain ⟨x, hx, hid⟩ := hex; exact ⟨x, hx, by simp [hid]⟩)
        have hpre2 : ∀ x ∈ pre, x.id ≠ mi.eventId :=
          fun x hx => (id_beq_false_iff x mi.eventId).mp (hpre x hx)
        have he2 : e.id = mi.eventId := by simpa using he
        have hrate := rateEvent_of_split s.manager mi.eventId mi.rating user
          pre e post hs hpre2 he2
        simp only [hrate]
        exact Effect.rated pre e post ua user ub mi rfl h4 hcur2 hs hu hpre2 he2
          ⟨hrange.1, hrange.2⟩ (by simp only [hset]; rfl) rfl
      · have habs := rateEvent_of_absent s.manager mi.eventId mi.rating user
          (fun e he hid => hex ⟨e, he, hid⟩)
        simp only [habs]
        refine Effect.same ?_ rfl
        show ({ s.manager with users := s.manager.users.set cur user } : EventManager)
          = s.manager
        rw [hset user, ← hu]
    · rw [if_neg hrange]
      exact Effect.same rfl rfl
  rw [if_neg h4]
  by_cases h5 : mi.choice = 5
  · rw [if_pos h5]
    exact Effect.same rfl rfl
  rw [if_neg h5]
  by_cases h6 : mi.choice = 6
  · rw [if_pos h6]
    by_cases hadmin : user.isAdminUser = true
    · rw [if_pos hadmin]
      rcases addNewEvent_cases s.manager s.nextId mi.newEvent with
        ⟨hm, hn⟩ | ⟨e, hid, hcap, hreg, hwait, hrat, hm, hn⟩
      · exact Effect.same hm hn
      · exact Effect.added e ua user ub mi rfl h6 hcur2 hu hadmin hid hcap hreg hwait hrat
          hm hn
    · rw [if_neg hadmin]
      exact Effect.same rfl rfl
  rw [if_neg h6]
  by_cases h0 : mi.choice = 0
  · rw [if_pos h0]
    exact Effect.same rfl rfl
  rw [if_neg h0]
  exact Effect.same rfl rfl

/-- The effect of one pass of the loop. -/
theorem step_effect (s : Shell) (inp : Input) (s' : Shell) (out : List Out)
    (h : step s inp = some (s', out)) : Effect s inp s' := by
  unfold step at h
  split at h
  · rename_i username password hcur
    split at h
    · cases h
    · split at h
      · cases h
      · simp only at h
        split at h
        · simp only [Option.some.injEq, Prod.mk.injEq] at h
          rw [← h.1]
          exact Effect.same rfl rfl
        · simp only [Option.some.injEq, Prod.mk.injEq] at h
          rw [← h.1]
          exact Effect.same rfl rfl
  · rename_i cur mi hcur
    split at h
    · cases h
    · rename_i user huser
      simp only [Option.some.injEq, Prod.mk.injEq] at h
      rw [← h.1]
      exact menuStep_effect s cur user mi hcur huser
  · cases h

/-- The sample session runs to its end. -/
theorem sampleState_reachable : Reachable sampleState :=
  ⟨sampleInputs, by rfl⟩

/-- A property that holds before the loop and is kept by every effect of a
pass holds in every state that `run` reaches. -/
theorem run_induction (P : Shell → Prop)
    (hstep : ∀ s inp s', P s → Effect s inp s' → P s') :
    ∀ (inputs : List Input) (s s' : Shell), P s → run s inputs = some s' → P s' := by
  intro inputs
  induction inputs with
  | nil =>
    intro s s' hs hrun
    simp only [run, Option.some.injEq] at hrun
    rw [← hrun]
    exact hs
  | cons inp rest ih =>
    intro s s' hs hrun
    unfold run at hrun
    cases hst : step s inp with
    | none => rw [hst] at hrun; cases hrun
    | some r =>
      rw [hst] at hrun
      exact ih r.1 s' (hstep s inp r.1 hs (step_effect s inp r.1 r.2 hst)) hrun

/-- Induction over the reachable states. -/
theorem reachable_induction (P : Shell → Prop) (h0 : P initial)
    (hstep : ∀ s inp s', P s → Effect s inp s' → P s') :
    ∀ s, Reachable s → P s := by
  rintro s ⟨inputs, hrun⟩
  exact run_induction P hstep inputs initial s h0 hrun

/-! ## Event ids -/

/-- The ids of the events, in insertion order, are strictly increasing and
below the counter `nextId`. -/
theorem ids_increasing_step (s : Shell) (inp : Input) (s' : Shell)
    (h : (s.manager.events.map Event.id).Pairwise (fun a b => a < b) ∧
      ∀ e ∈ s.manager.events, e.id < s.nextId)
    (heff : Effect s inp s') :
    (s'.manager.events.map Event.id).Pairwise (fun a b => a < b) ∧
      ∀ e ∈ s'.manager.events, e.id < s'.nextId := by
  obtain ⟨hp, hlt⟩ := h
  cases heff with
  | same hm hn => rw [hm, hn]; exact ⟨hp, hlt⟩
  | accepted pre e post ua user ub mi hinp hc hcur he hu hpre hid hroom hm hn =>
    rw [hm, hn]
    rw [he] at hp hlt
    refine ⟨by simpa using hp, ?_⟩
    intro x hx
    simp only [List.mem_append, List.mem_cons] at hx hlt
    rcases hx with hx | rfl | hx
    · exact hlt x (Or.inl hx)
    · exact hlt e (Or.inr (Or.inl rfl))
    · exact hlt x (Or.inr (Or.inr hx))
  | waitlisted pre e post ua user ub mi hinp hc hcur he hu hpre hid hfull hm hn =>
    rw [hm, hn]
    rw [he] at hp hlt
    refine ⟨by simpa using hp, ?_⟩
    intro x hx
    simp only [List.mem_append, List.mem_cons] at hx hlt
    rcases hx with hx | rfl | hx
    · exact hlt x (Or.inl hx)
    · exact hlt e (Or.inr (Or.inl rfl))
    · exact hlt x (Or.inr (Or.inr hx))
  | rated pre e post ua user ub mi hinp hc hcur he hu hpre hid hrange hm hn =>
    rw [hm, hn]
    rw [he] at hp hlt
    refine ⟨by simpa using hp, ?_⟩
    intro x hx
    simp only [List.mem_append, List.mem_cons] at hx hlt
    rcases hx with hx | rfl | hx
    · exact hlt x (Or.inl hx)
    · exact hlt e (Or.inr (Or.inl rfl))
    · exact hlt x (Or.inr (Or.inr hx))
  | added e ua user ub mi hinp hc hcur hu hadmin hid hcap hreg hwait hrat hm hn =>
    rw [hm, hn]
    constructor
    · rw [List.map_append, List.pairwise_append]
      refine ⟨hp, by simp, ?_⟩
      intro a ha b hb
      obtain ⟨x, hx, rfl⟩ := List.mem_map.mp ha
      have hb2 : b = e.id := by simpa using hb
      rw [hb2, hid]
      exact hlt x hx
    · intro x hx
      simp only [List.mem_append, List.mem_singleton] at hx
      rcases hx with hx | rfl
      · have := hlt x hx
        omega
      · omega

/-- In every reachable state the ids are strictly increasing and below
`nextId`. -/
theorem ids_increasing (s : Shell) (h : Reachable s) :
    (s.manager.events.map Event.id).Pairwise (fun a b => a < b) ∧
      ∀ e ∈ s.manager.events, e.id < s.nextId :=
  reachable_induction
    (fun s => (s.manager.events.map Event.id).Pairwise (fun a b => a < b) ∧
      ∀ e ∈ s.manager.events, e.id < s.nextId)
    (by decide) ids_increasing_step s h

/-- With strictly increasing ids, at most one event has a given id. -/
theorem filter_id_length_le_one (l : List Event) (k : Int)
    (h : (l.map Event.id).Pairwise (fun a b => a < b)) :
    (l.filter (fun e => e.id == k)).length ≤ 1 := by
  induction l with
  | nil => simp
  | cons e l ih =>
    rw [List.map_cons, List.pairwise_cons] at h
    obtain ⟨hhead, htail⟩ := h
    by_cases hk : e.id = k
    · have hnone : l.filter (fun x => x.id == k) = [] := by
        rw [List.filter_eq_nil_iff]
        intro x hx
        have hlt := hhead x.id (List.mem_map_of_mem Event.id hx)
        have hne : x.id ≠ k := by omega
        simpa using hne
      rw [List.filter_cons, if_pos (by simpa using hk), hnone]
      simp
    · rw [List.filter_cons, if_neg (by simpa using hk)]
      exact ih htail

/-- C11 (event ids are unique and sequential). Every constructor gives the new
event the current value of the counter `nextId` as its id and increments the
counter by one. The counter starts at 1, so the seed events have ids 1, 2, 3
and the loop starts with the counter at 4. In every state the loop of `main`
reaches, the ids of the events of the collection are strictly increasing in
insertion order, hence pairwise distinct, every id is below the counter, and
for any id at most one event of the collection has it. -/
theorem event_ids_unique_sequential :
    (∀ (nextId : Int) (n d : String) (c : Int) (cat : EventCategory) (x : String)
        (online : Bool),
      (Event.ctor nextId n d c cat).1.id = nextId ∧
      (Event.ctor nextId n d c cat).2 = nextId + 1 ∧
      (Seminar.ctor nextId n d c x).1.id = nextId ∧
      (Seminar.ctor nextId n d c x).2 = nextId + 1 ∧
      (Workshop.ctor nextId n d c x online).1.id = nextId ∧
      (Workshop.ctor nextId n d c x online).2 = nextId + 1 ∧
      (SportsEvent.ctor nextId n d c x).1.id = nextId ∧
      (SportsEvent.ctor nextId n d c x).2 = nextId + 1) ∧
    seed.1.events.map Event.id = [1, 2, 3] ∧
    initial.nextId = 4 ∧
    (∀ s, Reachable s →
      (s.manager.events.map Event.id).Pairwise (fun a b => a < b) ∧
      (s.manager.events.map Event.id).Nodup ∧
      (∀ e ∈ s.manager.events, e.id < s.nextId) ∧
      (∀ k, (s.manager.events.filter (fun e => e.id == k)).length ≤ 1)) := by
  refine ⟨?_, by decide, by decide, ?_⟩
  · intro nextId n d c cat x online
    exact ⟨rfl, rfl, rfl, rfl, rfl, rfl, rfl, rfl⟩
  · intro s hs
    obtain ⟨hp, hlt⟩ := ids_increasing s hs
    exact ⟨hp, List.Pairwise.imp (fun hab => ne_of_lt hab) hp, hlt,
      fun k => filter_id_length_le_one s.manager.events k hp⟩

/-- Instance of C11: the ids at the end of the sample session are 1, 2, 3, 4
and the counter is 5. -/
theorem event_ids_unique_sequential_witness :
    sampleState.manager.events.map Event.id = [1, 2, 3, 4] ∧ sampleState.nextId = 5 ∧
    (sampleState.manager.events.map Event.id).Pairwise (fun a b => a < b) ∧
    (∀ e ∈ sampleState.manager.events, e.id < sampleState.nextId) :=
  have h := event_ids_unique_sequential.2.2.2 sampleState sampleState_reachable
  ⟨by decide, by decide, h.1, h.2.2.1⟩

/-! ## The range of the ratings -/

/-- The entries after `m[k] = v` are `(k, v)` and entries from before. -/
theorem mem_mapAssign (m : List (Int × Int)) (k v : Int) (kv : Int × Int)
    (h : kv ∈ mapAssign m k v) : kv = (k, v) ∨ kv ∈ m := by
  induction m with
  | nil =>
    simp only [mapAssign, List.mem_singleton] at h
    exact Or.inl h
  | cons hd rest ih =>
    obtain ⟨k', v'⟩ := hd
    unfold mapAssign at h
    split at h
    · simp only [List.mem_cons] at h ⊢
      exact h
    · split at h
      · simp only [List.mem_cons] at h ⊢
        rcases h with h | h
        · exact Or.inl h
        · exact Or.inr (Or.inr h)
      · simp only [List.mem_cons] at h ⊢
        rcases h with h | h
        · exact Or.inr (Or.inl h)
        · rcases ih h with h | h
          · exact Or.inl h
          · exact Or.inr (Or.inr h)

/-- The sum of ratings that all lie in 1..5 lies between their number and five
times their number, so their mean lies between 1 and 5. -/
theorem sum_bounds_of_range (l : List Int) (h : ∀ r ∈ l, 1 ≤ r ∧ r ≤ 5) :
    (l.length : Int) ≤ l.sum ∧ l.sum ≤ 5 * (l.length : Int) := by
  induction l with
  | nil => simp
  | cons a l ih =>
    have ha := h a (List.mem_cons_self a l)
    have hl := ih (fun r hr => h r (List.mem_cons_of_mem a hr))
    simp only [List.length_cons, List.sum_cons, Nat.cast_add, Nat.cast_one]
    omega

/-- One pass of the loop keeps every rating, in the events and in the users'
maps, in 1..5. -/
theorem ratings_in_range_step (s : Shell) (inp : Input) (s' : Shell)
    (h : (∀ e ∈ s.manager.events, ∀ r ∈ e.ratings, 1 ≤ r ∧ r ≤ 5) ∧
      ∀ u ∈ s.manager.users, ∀ kv ∈ u.eventRatings, 1 ≤ kv.2 ∧ kv.2 ≤ 5)
    (heff : Effect s inp s') :
    (∀ e ∈ s'.manager.events, ∀ r ∈ e.ratings, 1 ≤ r ∧ r ≤ 5) ∧
      ∀ u ∈ s'.manager.users, ∀ kv ∈ u.eventRatings, 1 ≤ kv.2 ∧ kv.2 ≤ 5 := by
  obtain ⟨hev, hus⟩ := h
  cases heff with
  | same hm hn => rw [hm]; exact ⟨hev, hus⟩
  | accepted pre e post ua user ub mi hinp hc hcur he hu hpre hid hroom hm hn =>
    rw [hm]
    rw [he] at hev
    rw [hu] at hus
    simp only [List.mem_append, List.mem_cons] at hev hus ⊢
    constructor
    · rintro x (hx | rfl | hx)
      · exact hev x (Or.inl hx)
      · exact hev e (Or.inr (Or.inl rfl))
      · exact hev x (Or.inr (Or.inr hx))
    · rintro u (hx | rfl | hx)
      · exact hus u (Or.inl hx)
      · exact hus user (Or.inr (Or.inl rfl))
      · exact hus u (Or.inr (Or.inr hx))
  | waitlisted pre e post ua user ub mi hinp hc hcur he hu hpre hid hfull hm hn =>
    rw [hm]
    rw [he] at hev
    simp only [List.mem_append, List.mem_cons] at hev ⊢
    refine ⟨?_, hus⟩
    rintro x (hx | rfl | hx)
    · exact hev x (Or.inl hx)
    · exact hev e (Or.inr (Or.inl rfl))
    · exact hev x (Or.inr (Or.inr hx))
  | rated pre e post ua user ub mi hinp hc hcur he hu hpre hid hrange hm hn =>
    rw [hm]
    rw [he] at hev
    rw [hu] at hus
    simp only [List.mem_append, List.mem_cons] at hev hus ⊢
    constructor
    · rintro x (hx | rfl | hx)
      · exact hev x (Or.inl hx)
      · intro r hr
        simp only [List.mem_append, List.mem_singleton] at hr
        rcases hr with hr | rfl
        · exact hev e (Or.inr (Or.inl rfl)) r hr
        · exact hrange
      · exact hev x (Or.inr (Or.inr hx))
    · rintro u (hx | rfl | hx)
      · exact hus u (Or.inl hx)
      · intro kv hkv
        rcases mem_mapAssign user.eventRatings mi.eventId mi.rating kv hkv with rfl | hkv
        · exact hrange
        · exact hus user (Or.inr (Or.inl rfl)) kv hkv
      · exact hus u (Or.inr (Or.inr hx))
  | added e ua user ub mi hinp hc hcur hu hadmin hid hcap hreg hwait hrat hm hn =>
    rw [hm]
    refine ⟨?_, hus⟩
    intro x hx
    simp only [List.mem_append, List.mem_singleton] at hx
    rcases hx with hx | rfl
    · exact hev x hx
    · intro r hr
      rw [hrat] at hr
      exact absurd hr (List.not_mem_nil r)

/-- C12 (the shell enforces the rating range). A rate command (menu choice 4)
whose rating is outside 1..5 returns the state as it was, so no event and no
user changes, and writes the message that asks for a number between 1 and 5.
Consequently, in every state the loop of `main` reaches, every value of every
event's ratings sequence and every value of every user's rating map lies in
1..5; and for an event with ratings the sum of its ratings lies between their
number and five times their number, that is, their mean lies between 1 and
5. -/
theorem rating_range_enforced :
    (∀ (s : Shell) (cur : Nat) (user : User) (mi : MenuInput),
      s.currentUser = some cur → s.manager.users[cur]? = some user →
      mi.choice = 4 → ¬ (1 ≤ mi.rating ∧ mi.rating ≤ 5) →
      step s (Input.menu mi) =
        some (s, menuLines user ++
          [Out.line "Invalid rating. Please enter a number between 1 and 5."])) ∧
    (∀ s, Reachable s →
      (∀ e ∈ s.manager.events, ∀ r ∈ e.ratings, 1 ≤ r ∧ r ≤ 5) ∧
      (∀ u ∈ s.manager.users, ∀ kv ∈ u.eventRatings, 1 ≤ kv.2 ∧ kv.2 ≤ 5) ∧
      (∀ e ∈ s.manager.events, e.ratings ≠ [] →
        (e.ratings.length : Int) ≤ e.ratings.sum ∧
        e.ratings.sum ≤ 5 * (e.ratings.length : Int))) := by
  constructor
  · intro s cur user mi hcur huser hc hrange
    have hr : ¬ (mi.rating ≥ 1 ∧ mi.rating ≤ 5) := hrange
    have h1 : mi.choice ≠ 1 := by omega
    have h2 : mi.choice ≠ 2 := by omega
    have h3 : mi.choice ≠ 3 := by omega
    unfold step
    simp only [hcur, huser]
    unfold menuStep
    rw [if_neg h1, if_neg h2, if_neg h3, if_pos hc, if_neg hr]
  · intro s hs
    have h := reachable_induction
      (fun s => (∀ e ∈ s.manager.events, ∀ r ∈ e.ratings, 1 ≤ r ∧ r ≤ 5) ∧
        ∀ u ∈ s.manager.users, ∀ kv ∈ u.eventRatings, 1 ≤ kv.2 ∧ kv.2 ≤ 5)
      (by decide) ratings_in_range_step s hs
    exact ⟨h.1, h.2, fun e he _ => sum_bounds_of_range e.ratings (h.1 e he)⟩

/-- Instance of C12: at the end of the sample session "lavale" enters the
rating 9 for the workshop and nothing changes; the ratings there are in
range. -/
theorem rating_range_enforced_witness :
    step sampleState (Input.menu (sampleMenu 4 2 9)) =
      some (sampleState,
        menuLines (((User.ctor "lavale" "hillbase" false).registerForEvent 4).rateEvent 2 4) ++
        [Out.line "Invalid rating. Please enter a number between 1 and 5."]) ∧
    (∀ e ∈ sampleState.manager.events, ∀ r ∈ e.ratings, 1 ≤ r ∧ r ≤ 5) :=
  ⟨rating_range_enforced.1 sampleState 1
      (((User.ctor "lavale" "hillbase" false).registerForEvent 4).rateEvent 2 4)
      (sampleMenu 4 2 9) (by decide) (by decide) rfl (by decide),
   (rating_range_enforced.2 sampleState sampleState_reachable).1⟩

/-! ## The admin-only command -/

/-- An effect that changes the number of events is the addition of one event
by a logged-in admin through menu choice 6. -/
theorem effect_events_length (s : Shell) (inp : Input) (s' : Shell) (heff : Effect s inp s') :
    s'.manager.events.length = s.manager.events.length ∨
    (s'.manager.events.length = s.manager.events.length + 1 ∧
      ∃ cur user mi, s.currentUser = some cur ∧ s.manager.users[cur]? = some user ∧
        user.isAdminUser = true ∧ inp = Input.menu mi ∧ mi.choice = 6) := by
  cases heff with
  | same hm hn => left; rw [hm]
  | accepted pre e post ua user ub mi hinp hc hcur he hu hpre hid hroom hm hn =>
    left; rw [hm, he]; simp
  | waitlisted pre e post ua user ub mi hinp hc hcur he hu hpre hid hfull hm hn =>
    left; rw [hm, he]; simp
  | rated pre e post ua user ub mi hinp hc hcur he hu hpre hid hrange hm hn =>
    left; rw [hm, he]; simp
  | added e ua user ub mi hinp hc hcur hu hadmin hid hcap hreg hwait hrat hm hn =>
    right
    refine ⟨by rw [hm]; simp, ua.length, user, mi, hcur, ?_, hadmin, hinp, hc⟩
    rw [hu, List.getElem?_append_right (le_refl _), Nat.sub_self]
    simp

/-- C13 (menu item 6 is admin-only). When the logged-in user is not an admin,
menu choice 6 returns the state as it was (the event collection with every
event's lists, the user collection and the id counter) and writes "Invalid
choice. Please try again."; whatever is entered for the new event is not
read. And a pass of the loop after which the collection has another number of
events has added exactly one event, by menu choice 6 of a logged-in user who
is an admin. -/
theorem add_event_admin_only :
    (∀ (s : Shell) (cur : Nat) (user : User) (mi : MenuInput),
      s.currentUser = some cur → s.manager.users[cur]? = some user →
      user.isAdminUser = false → mi.choice = 6 →
      step s (Input.menu mi) =
        some (s, menuLines user ++ [Out.line "Invalid choice. Please try again."])) ∧
    (∀ (s : Shell) (inp : Input) (s' : Shell) (out : List Out),
      step s inp = some (s', out) →
      s'.manager.events.length ≠ s.manager.events.length →
      s'.manager.events.length = s.manager.events.length + 1 ∧
      ∃ cur user mi, s.currentUser = some cur ∧ s.manager.users[cur]? = some user ∧
        user.isAdminUser = true ∧ inp = Input.menu mi ∧ mi.choice = 6) := by
  constructor
  · intro s cur user mi hcur huser hadmin hc
    have h1 : mi.choice ≠ 1 := by omega
    have h2 : mi.choice ≠ 2 := by omega
    have h3 : mi.choice ≠ 3 := by omega
    have h4 : mi.choice ≠ 4 := by omega
    have h5 : mi.choice ≠ 5 := by omega
    have hna : ¬ user.isAdminUser = true := by rw [hadmin]; decide
    unfold step
    simp only [hcur, huser]
    unfold menuStep
    rw [if_neg h1, if_neg h2, if_neg h3, if_neg h4, if_neg h5, if_pos hc, if_neg hna]
  · intro s inp s' out hstep hne
    rcases effect_events_length s inp s' (step_effect s inp s' out hstep) with h | h
    · exact absurd h hne
    · exact h

/-- Instance of C13: at the end of the sample session "lavale", who is not an
admin, chooses 6 and nothing changes. -/
theorem add_event_admin_only_witness :
    step sampleState (Input.menu (sampleMenu 6 0 0)) =
      some (sampleState,
        menuLines (((User.ctor "lavale" "hillbase" false).registerForEvent 4).rateEvent 2 4) ++
        [Out.line "Invalid choice. Please try again."]) :=
  add_event_admin_only.1 sampleState 1
    (((User.ctor "lavale" "hillbase" false).registerForEvent 4).rateEvent 2 4)
    (sampleMenu 6 0 0) (by decide) (by decide) (by decide) rfl

/-! ## The two copies of the rating data -/

/-- With pairwise distinct ids, the events around the one in the middle of a
split have other ids. -/
theorem ids_ne_of_nodup (pre : List Event) (e : Event) (post : List Event)
    (h : ((pre ++ e :: post).map Event.id).Nodup) :
    ∀ x, x ∈ pre ∨ x ∈ post → x.id ≠ e.id := by
  rw [List.map_append, List.map_cons, List.nodup_middle, List.nodup_cons] at h
  intro x hx hid
  apply h.1
  rw [← hid, ← List.map_append]
  exact List.mem_map_of_mem Event.id (List.mem_append.mpr hx)

/-- The ratings held for an id, along a split of the users. -/
theorem heldRatings_split (evs : List Event) (ua : List User) (u : User) (ub : List User)
    (k : Int) :
    heldRatings { events := evs, users := ua ++ u :: ub } k =
      ua.filterMap (fun u => List.lookup k u.eventRatings) ++
        ((List.lookup k u.eventRatings).toList ++
          ub.filterMap (fun u => List.lookup k u.eventRatings)) := by
  unfold heldRatings
  simp only [List.filterMap_append, List.filterMap_cons]
  cases List.lookup k u.eventRatings <;> rfl

/-- One `rateEvent` call on a user of the collection keeps the ids pairwise
distinct and, for every event, the ratings held for its id within its ratings
sequence. -/
theorem rateCall_keeps_contained (m : EventManager) (c : RateCall)
    (h : (m.events.map Event.id).Nodup ∧
      ∀ e ∈ m.events, (heldRatings m e.id).Subperm e.ratings) :
    ((rateCall m c).events.map Event.id).Nodup ∧
      ∀ e ∈ (rateCall m c).events,
        (heldRatings (rateCall m c) e.id).Subperm e.ratings := by
  obtain ⟨hnd, hsub⟩ := h
  unfold rateCall
  cases hu : m.users[c.user]? with
  | none => exact ⟨hnd, hsub⟩
  | some u =>
    obtain ⟨ua, ub, hus, hlen, hset⟩ := split_at_index m.users c.user u hu
    by_cases hex : ∃ e ∈ m.events, e.id = c.eventId
    · obtain ⟨pre, e, post, hs, hpre, he⟩ :=
        exists_first_split (fun event : Event => event.id == c.eventId) m.events
          (by obtain ⟨x, hx, hid⟩ := hex; exact ⟨x, hx, by simp [hid]⟩)
      have hpre2 : ∀ x ∈ pre, x.id ≠ c.eventId :=
        fun x hx => (id_beq_false_iff x c.eventId).mp (hpre x hx)
      have he2 : e.id = c.eventId := by simpa using he
      have hrate := rateEvent_of_split m c.eventId c.rating u pre e post hs hpre2 he2
      simp only [hrate, hset]
      rw [hs] at hnd hsub
      have hother := ids_ne_of_nodup pre e post hnd
      have hm : m = { events := pre ++ e :: post, users := ua ++ u :: ub } := by
        cases m
        simp only at hs hus
        rw [hs, hus]
      constructor
      · simpa using hnd
      · intro x hx
        have hold : ∀ (evs : List Event) (y : Event), y ∈ pre ∨ y ∈ post →
            (heldRatings ⟨evs, ua ++ u.rateEvent c.eventId c.rating :: ub⟩ y.id).Subperm
              y.ratings := by
          intro evs y hy
          have hne : y.id ≠ c.eventId := by rw [← he2]; exact hother y hy
          have hy2 : y ∈ pre ++ e :: post := by
            simp only [List.mem_append, List.mem_cons]
            rcases hy with hy | hy
            · exact Or.inl hy
            · exact Or.inr (Or.inr hy)
          have hbefore := hsub y hy2
          rw [hm, heldRatings_split] at hbefore
          rw [heldRatings_split]
          simp only [User.rateEvent,
            lookup_mapAssign_other u.eventRatings c.eventId c.rating y.id hne]
          exact hbefore
        simp only [List.mem_append, List.mem_cons] at hx
        rcases hx with hx | rfl | hx
        · exact hold _ x (Or.inl hx)
        · have hbefore := hsub e (by simp)
          rw [hm, heldRatings_split, he2] at hbefore
          rw [heldRatings_split]
          simp only [he2, lookup_mapAssign_self, Option.toList]
          have hless : (ua.filterMap (fun u => List.lookup c.eventId u.eventRatings) ++
              ub.filterMap (fun u => List.lookup c.eventId u.eventRatings)).Subperm
              e.ratings := by
            refine List.Subperm.trans (List.Sublist.subperm ?_) hbefore
            exact List.Sublist.append (List.Sublist.refl _) (List.sublist_append_right _ _)
          have h1 : (ua.filterMap (fun u => List.lookup c.eventId u.eventRatings) ++
              ([c.rating] ++
                ub.filterMap (fun u => List.lookup c.eventId u.eventRatings))).Perm
              (c.rating :: (ua.filterMap (fun u => List.lookup c.eventId u.eventRatings) ++
                ub.filterMap (fun u => List.lookup c.eventId u.eventRatings))) :=
            List.perm_middle
          have h2 : (e.ratings ++ [c.rating]).Perm (c.rating :: e.ratings) :=
            List.perm_append_singleton _ _
          exact (List.Perm.subperm_right h1).mpr
            ((List.Perm.subperm_left h2).mpr ((List.subperm_cons c.rating).mpr hless))
        · exact hold _ x (Or.inr hx)
    · have habs := rateEvent_of_absent m c.eventId c.rating u
        (fun e he hid => hex ⟨e, he, hid⟩)
      simp only [habs, hset]
      rw [← hus]
      exact ⟨hnd, hsub⟩

/-- A sequence of `rateEvent` calls keeps the same two properties. -/
theorem rateAll_keeps_contained (cs : List RateCall) : ∀ m : EventManager,
    ((m.events.map Event.id).Nodup ∧
      ∀ e ∈ m.events, (heldRatings m e.id).Subperm e.ratings) →
    (((rateAll m cs).events.map Event.id).Nodup ∧
      ∀ e ∈ (rateAll m cs).events, (heldRatings (rateAll m cs) e.id).Subperm e.ratings) := by
  induction cs with
  | nil => intro m h; exact h
  | cons c cs ih =>
    intro m h
    exact ih (rateCall m c) (rateCall_keeps_contained m c h)

/-- C14 (rating copies), counterexample. From the seed, "lavale" (the user at
index 1) rates the workshop (id 2) with 3 and then with 5. Afterwards the
ratings sequence of the workshop is [3, 5] while the users' maps hold only the
rating 5 for id 2: the two are not equal as multisets. -/
theorem rating_copies_differ :
    ∃ e ∈ (rateAll seed.1 [⟨1, 2, 3⟩, ⟨1, 2, 5⟩]).events,
      e.id = 2 ∧ e.ratings = [3, 5] ∧
      heldRatings (rateAll seed.1 [⟨1, 2, 3⟩, ⟨1, 2, 5⟩]) e.id = [5] ∧
      ¬ e.ratings.Perm (heldRatings (rateAll seed.1 [⟨1, 2, 3⟩, ⟨1, 2, 5⟩]) e.id) := by
  refine ⟨((Workshop.ctor 2 "Web Development" "2024-11-01" 50 "Full-stack JavaScript"
    true).1.addRating 3).addRating 5, by decide, rfl, rfl, by decide, ?_⟩
  intro hperm
  have hlen := hperm.length_eq
  revert hlen
  decide

/-! ## The users' records and the events -/

/-- With pairwise distinct usernames, the users around the one in the middle of
a split have other usernames. -/
theorem usernames_ne_of_nodup (ua : List User) (user : User) (ub : List User)
    (h : ((ua ++ user :: ub).map User.username).Nodup) :
    ∀ u, u ∈ ua ∨ u ∈ ub → u.username ≠ user.username := by
  rw [List.map_append, List.map_cons, List.nodup_middle, List.nodup_cons] at h
  intro u hu hname
  apply h.1
  rw [← hname, ← List.map_append]
  exact List.mem_map_of_mem User.username (List.mem_append.mpr hu)

/-- One pass of the loop keeps the usernames as they are. -/
theorem usernames_step (s : Shell) (inp : Input) (s' : Shell) (heff : Effect s inp s') :
    s'.manager.users.map User.username = s.manager.users.map User.username := by
  cases heff with
  | same hm hn => rw [hm]
  | accepted pre e post ua user ub mi hinp hc hcur he hu hpre hid hroom hm hn =>
    rw [hm, hu]
    simp [User.registerForEvent]
  | waitlisted pre e post ua user ub mi hinp hc hcur he hu hpre hid hfull hm hn =>
    rw [hm]
  | rated pre e post ua user ub mi hinp hc hcur he hu hpre hid hrange hm hn =>
    rw [hm, hu]
    simp [User.rateEvent]
  | added e ua user ub mi hinp hc hcur hu hadmin hid hcap hreg hwait hrat hm hn =>
    rw [hm]

/-- An id that some event has is still the id of an event when one event of
the collection is replaced by an event with the same id. -/
theorem exists_id_replace (pre : List Event) (e e' : Event) (post : List Event) (k : Int)
    (hid : e'.id = e.id) (h : ∃ x ∈ pre ++ e :: post, x.id = k) :
    ∃ x ∈ pre ++ e' :: post, x.id = k := by
  obtain ⟨x, hx, hk⟩ := h
  simp only [List.mem_append, List.mem_cons] at hx
  rcases hx with hx | rfl | hx
  · exact ⟨x, by simp [hx], hk⟩
  · exact ⟨e', by simp, by rw [hid, hk]⟩
  · exact ⟨x, by simp [hx], hk⟩

/-- One pass of the loop keeps the users' records free of ids that no event
has. -/
theorem noDangling_step (s : Shell) (inp : Input) (s' : Shell)
    (h : NoDangling s) (heff : Effect s inp s') : NoDangling s' := by
  obtain ⟨hreg, hrat⟩ := h
  unfold NoDangling
  cases heff with
  | same hm hn => rw [hm]; exact ⟨hreg, hrat⟩
  | accepted pre e post ua user ub mi hinp hc hcur he hu hpre hid hroom hm hn =>
    rw [hm]
    rw [he, hu] at hreg hrat
    simp only [List.forall_mem_append, List.forall_mem_cons] at hreg hrat ⊢
    have hrep : ∀ k, (∃ x ∈ pre ++ e :: post, x.id = k) →
        ∃ x ∈ pre ++ { e with registeredUsers := e.registeredUsers ++ [user.username] } :: post,
          x.id = k :=
      fun k hk => exists_id_replace pre e _ post k rfl hk
    refine ⟨⟨fun u hu k hk => hrep k (hreg.1 u hu k hk), ?_,
      fun u hu k hk => hrep k (hreg.2.2 u hu k hk)⟩,
      ⟨fun u hu kv hkv => hrep kv.1 (hrat.1 u hu kv hkv),
       fun kv hkv => hrep kv.1 (hrat.2.1 kv hkv),
       fun u hu kv hkv => hrep kv.1 (hrat.2.2 u hu kv hkv)⟩⟩
    intro k hk
    simp only [User.registerForEvent, List.mem_append, List.mem_singleton] at hk
    rcases hk with hk | rfl
    · exact hrep k (hreg.2.1 k hk)
    · exact hrep _ ⟨e, by simp, hid⟩
  | waitlisted pre e post ua user ub mi hinp hc hcur he hu hpre hid hfull hm hn =>
    rw [hm]
    rw [he] at hreg hrat
    have hrep : ∀ k, (∃ x ∈ pre ++ e :: post, x.id = k) →
        ∃ x ∈ pre ++ { e with waitlist := e.waitlist ++ [user.username] } :: post,
          x.id = k :=
      fun k hk => exists_id_replace pre e _ post k rfl hk
    exact ⟨fun u hu k hk => hrep k (hreg u hu k hk),
      fun u hu kv hkv => hrep kv.1 (hrat u hu kv hkv)⟩
  | rated pre e post ua user ub mi hinp hc hcur he hu hpre hid hrange hm hn =>
    rw [hm]
    rw [he, hu] at hreg hrat
    simp only [List.forall_mem_append, List.forall_mem_cons] at hreg hrat ⊢
    have hrep : ∀ k, (∃ x ∈ pre ++ e :: post, x.id = k) →
        ∃ x ∈ pre ++ { e with ratings := e.ratings ++ [mi.rating] } :: post, x.id = k :=
      fun k hk => exists_id_replace pre e _ post k rfl hk
    refine ⟨⟨fun u hu k hk => hrep k (hreg.1 u hu k hk),
      fun k hk => hrep k (hreg.2.1 k hk),
      fun u hu k hk => hrep k (hreg.2.2 u hu k hk)⟩,
      ⟨fun u hu kv hkv => hrep kv.1 (hrat.1 u hu kv hkv), ?_,
       fun u hu kv hkv => hrep kv.1 (hrat.2.2 u hu kv hkv)⟩⟩
    intro kv hkv
    rcases mem_mapAssign user.eventRatings mi.eventId mi.rating kv hkv with rfl | hkv
    · exact hrep _ ⟨e, by simp, hid⟩
    · exact hrep kv.1 (hrat.2.1 kv hkv)
  | added e ua user ub mi hinp hc hcur hu hadmin hid hcap hreg2 hwait hrat2 hm hn =>
    rw [hm]
    constructor
    · intro u hu k hk
      obtain ⟨x, hx, hxk⟩ := hreg u hu k hk
      exact ⟨x, List.mem_append_left _ hx, hxk⟩
    · intro u hu kv hkv
      obtain ⟨x, hx, hxk⟩ := hrat u hu kv hkv
      exact ⟨x, List.mem_append_left _ hx, hxk⟩

/-- In every reachable state the users' records refer to events of the
collection only. -/
theorem noDangling_reachable (s : Shell) (h : Reachable s) : NoDangling s :=
  reachable_induction NoDangling (by unfold NoDangling; decide) noDangling_step s h

/-- In every reachable state the usernames are those of the seed users. -/
theorem usernames_reachable (s : Shell) (h : Reachable s) :
    s.manager.users.map User.username = ["sit", "lavale", "209"] :=
  reachable_induction (fun s => s.manager.users.map User.username = ["sit", "lavale", "209"])
    (by decide) (fun s inp s' hs heff => (usernames_step s inp s' heff).trans hs) s h

/-- Appending a value adds one to its number of occurrences. -/
theorem count_push_self {α : Type} [DecidableEq α] (l : List α) (a : α) :
    (l ++ [a]).count a = l.count a + 1 := by
  simp [List.count_append]

/-- Appending a value leaves the number of occurrences of any other value. -/
theorem count_push_ne {α : Type} [DecidableEq α] (l : List α) (a b : α) (h : b ≠ a) :
    (l ++ [a]).count b = l.count b := by
  rw [List.count_append, List.count_singleton]
  have : (a == b) = false := by simpa using (Ne.symm h)
  simp [this]

/-- One pass of the loop keeps the registered-events sequences mirroring the
`registeredUsers` vectors, in a state with distinct ids below the counter,
distinct usernames and no dangling ids. -/
theorem mirrored_step (s : Shell) (inp : Input) (s' : Shell)
    (hids : (s.manager.events.map Event.id).Pairwise (fun a b => a < b))
    (hlt : ∀ e ∈ s.manager.events, e.id < s.nextId)
    (hnames : (s.manager.users.map User.username).Nodup)
    (hnd : NoDangling s) (h : RegistrationsMirrored s) (heff : Effect s inp s') :
    RegistrationsMirrored s' := by
  have hnodup : (s.manager.events.map Event.id).Nodup :=
    List.Pairwise.imp (fun hab => ne_of_lt hab) hids
  unfold RegistrationsMirrored at h ⊢
  cases heff with
  | same hm hn => rw [hm]; exact h
  | accepted pre e post ua user ub mi hinp hc hcur he hu hpre hid hroom hm hn =>
    rw [hm]
    rw [he] at hnodup
    rw [hu] at hnames
    rw [he, hu] at h
    have hio := ids_ne_of_nodup pre e post hnodup
    have hno := usernames_ne_of_nodup ua user ub hnames
    simp only [List.forall_mem_append, List.forall_mem_cons] at h ⊢
    obtain ⟨ha, ⟨hu1, hu2, hu3⟩, hb⟩ := h
    refine ⟨fun u hu => ⟨(ha u hu).1, ?_, (ha u hu).2.2⟩, ⟨?_, ?_, ?_⟩,
      fun u hu => ⟨(hb u hu).1, ?_, (hb u hu).2.2⟩⟩
    · show u.registeredEvents.count e.id = (e.registeredUsers ++ [user.username]).count u.username
      rw [count_push_ne _ _ _ (hno u (Or.inl hu))]
      exact (ha u hu).2.1
    · intro x hx
      show (user.registeredEvents ++ [mi.eventId]).count x.id = x.registeredUsers.count user.username
      rw [count_push_ne _ _ _ (by rw [← hid]; exact hio x (Or.inl hx))]
      exact hu1 x hx
    · show (user.registeredEvents ++ [mi.eventId]).count e.id =
        (e.registeredUsers ++ [user.username]).count user.username
      rw [← hid, count_push_self, count_push_self, hu2]
    · intro x hx
      show (user.registeredEvents ++ [mi.eventId]).count x.id = x.registeredUsers.count user.username
      rw [count_push_ne _ _ _ (by rw [← hid]; exact hio x (Or.inr hx))]
      exact hu3 x hx
    · show u.registeredEvents.count e.id = (e.registeredUsers ++ [user.username]).count u.username
      rw [count_push_ne _ _ _ (hno u (Or.inr hu))]
      exact (hb u hu).2.1
  | waitlisted pre e post ua user ub mi hinp hc hcur he hu hpre hid hfull hm hn =>
    rw [hm]
    rw [he] at h
    simp only [List.forall_mem_append, List.forall_mem_cons] at h ⊢
    exact h
  | rated pre e post ua user ub mi hinp hc hcur he hu hpre hid hrange hm hn =>
    rw [hm]
    rw [he, hu] at h
    simp only [List.forall_mem_append, List.forall_mem_cons] at h ⊢
    exact h
  | added e ua user ub mi hinp hc hcur hu hadmin hid hcap hreg hwait hrat hm hn =>
    rw [hm]
    intro u hu x hx
    simp only [List.mem_append, List.mem_singleton] at hx
    rcases hx with hx | rfl
    · exact h u hu x hx
    · rw [hreg, List.count_nil, List.count_eq_zero]
      intro hmem
      obtain ⟨y, hy, hyid⟩ := hnd.1 u hu x.id hmem
      have := hlt y hy
      omega

/-- The manager's registration call never touches the user collection. -/
theorem registerParticipant_users (m : EventManager) (eventId : Int) (username : String) :
    (m.registerParticipant eventId username).1.users = m.users := by
  unfold EventManager.registerParticipant
  simp only
  split <;> rfl

/-- In every reachable state: ids strictly increasing and below the counter,
the seed usernames, no dangling ids, and mirrored registrations. -/
theorem consistent_reachable (s : Shell) (h : Reachable s) :
    ((s.manager.events.map Event.id).Pairwise (fun a b => a < b) ∧
      ∀ e ∈ s.manager.events, e.id < s.nextId) ∧
    s.manager.users.map User.username = ["sit", "lavale", "209"] ∧
    NoDangling s ∧ RegistrationsMirrored s := by
  refine reachable_induction
    (fun s => ((s.manager.events.map Event.id).Pairwise (fun a b => a < b) ∧
        ∀ e ∈ s.manager.events, e.id < s.nextId) ∧
      s.manager.users.map User.username = ["sit", "lavale", "209"] ∧
      NoDangling s ∧ RegistrationsMirrored s)
    ⟨by decide, by decide, by unfold NoDangling; decide,
      by unfold RegistrationsMirrored; decide⟩ ?_ s h
  rintro s inp s' ⟨hids, hnames, hnd, hmir⟩ heff
  refine ⟨ids_increasing_step s inp s' hids heff, (usernames_step s inp s' heff).trans hnames,
    noDangling_step s inp s' hnd heff, ?_⟩
  exact mirrored_step s inp s' hids.1 hids.2 (by rw [hnames]; decide) hnd hmir heff

/-- C15 (registered-events sequences record the accepted registrations). In the
register command (menu choice 2) of the logged-in user, the manager's
`registerParticipant` is called with the id read and the user's username, and
the id is appended to that user's registered-events sequence exactly when the
call returned true (Accepted); when it returned false (Waitlisted, or no event
with the id) the user collection is as before. Consequently, in every state the
loop of `main` reaches, for every user and every event the id of the event
occurs in the user's registered-events sequence as often as the username occurs
in the `registeredUsers` of the event; entries of the waitlist are not
counted, so a waitlisted registration left no entry in the sequence. -/
theorem registered_events_mirror_accepted :
    (∀ (s : Shell) (cur : Nat) (user : User) (mi : MenuInput),
      s.currentUser = some cur → s.manager.users[cur]? = some user → mi.choice = 2 →
      step s (Input.menu mi) =
        some ({ s with manager :=
            { events := (s.manager.registerParticipant mi.eventId user.username).1.events,
              users :=
                if (s.manager.registerParticipant mi.eventId user.username).2.1 = true then
                  s.manager.users.set cur
                    { user with registeredEvents := user.registeredEvents ++ [mi.eventId] }
                else s.manager.users } },
          menuLines user ++ (s.manager.registerParticipant mi.eventId user.username).2.2)) ∧
    (∀ s, Reachable s → ∀ u ∈ s.manager.users, ∀ e ∈ s.manager.events,
      u.registeredEvents.count e.id = e.registeredUsers.count u.username) := by
  constructor
  · intro s cur user mi hcur huser hc
    have h1 : mi.choice ≠ 1 := by omega
    have husers := registerParticipant_users s.manager mi.eventId user.username
    unfold step
    simp only [hcur, huser]
    unfold menuStep
    rw [if_neg h1, if_pos hc]
    simp only [User.getUsername]
    cases hret : (s.manager.registerParticipant mi.eventId user.username).2.1 with
    | true =>
      simp only [if_true, husers, hcur]
      rfl
    | false =>
      simp only [Bool.false_eq_true, if_false, hcur]
      rw [← husers]
  · intro s hs
    exact (consistent_reachable s hs).2.2.2

/-- Instance of C15: at the end of the sample session "lavale" registers for
event 4, which is full, and the user record stays as it was; and the id 4
occurs once in the sequence of "sit", who is registered there once. -/
theorem registered_events_mirror_accepted_witness :
    (step sampleState (Input.menu (sampleMenu 2 4 0))).map (fun r => r.1.manager.users) =
      some sampleState.manager.users ∧
    (∀ u ∈ sampleState.manager.users, ∀ e ∈ sampleState.manager.events,
      u.registeredEvents.count e.id = e.registeredUsers.count u.username) :=
  ⟨by
    rw [registered_events_mirror_accepted.1 sampleState 1
      (((User.ctor "lavale" "hillbase" false).registerForEvent 4).rateEvent 2 4)
      (sampleMenu 2 4 0) (by decide) (by decide) rfl]
    decide,
   registered_events_mirror_accepted.2 sampleState sampleState_reachable⟩

/-! ## The profile of a user -/

/-- The first element satisfying `p`, along a split at it. -/
theorem find?_split {α : Type} (p : α → Bool) (pre : List α) (e : α) (post : List α)
    (hpre : ∀ x ∈ pre, p x = false) (he : p e = true) :
    (pre ++ e :: post).find? p = some e := by
  induction pre with
  | nil => simp [List.find?, he]
  | cons a pre ih =>
    have ha : p a = false := hpre a (List.mem_cons_self a pre)
    rw [List.cons_append, List.find?_cons, ha]
    exact ih (fun x hx => hpre x (List.mem_cons_of_mem a hx))

/-- A `filterMap` that skips nothing is a `map`. -/
theorem filterMap_eq_map_of_forall {α β : Type} (l : List α) (f : α → Option β) (g : α → β)
    (h : ∀ x ∈ l, f x = some (g x)) : l.filterMap f = l.map g := by
  induction l with
  | nil => rfl
  | cons a l ih =>
    rw [List.filterMap_cons, h a (List.mem_cons_self a l), List.map_cons,
      ih (fun x hx => h x (List.mem_cons_of_mem a hx))]

/-- The lookup of `displayUserProfile` for an id that some event has: the
iterator is not `end()` and points to the event whose name `eventName` gives. -/
theorem profile_lookup (m : EventManager) (k : Int) (hex : ∃ e ∈ m.events, e.id = k) :
    ∃ h : find_if (fun event : Event => event.id == k) m.events < m.events.length,
      (m.events.get ⟨find_if (fun event : Event => event.id == k) m.events, h⟩).name =
        eventName m k := by
  obtain ⟨pre, e, post, hs, hpre, he⟩ :=
    exists_first_split (fun event : Event => event.id == k) m.events
      (by obtain ⟨x, hx, hid⟩ := hex; exact ⟨x, hx, by simp [hid]⟩)
  obtain ⟨hlt, hget, _⟩ := find_if_get_set (fun event : Event => event.id == k)
    m.events pre e post hs hpre he
  refine ⟨hlt, ?_⟩
  rw [hget]
  unfold eventName
  rw [hs, find?_split _ pre e post hpre he]

/-- The profile of a user whose record has no dangling id: no entry is
skipped. -/
theorem displayUserProfile_of_valid (m : EventManager) (u : User)
    (hreg : ∀ k ∈ u.registeredEvents, ∃ e ∈ m.events, e.id = k)
    (hrat : ∀ kv ∈ u.eventRatings, ∃ e ∈ m.events, e.id = kv.1) :
    m.displayUserProfile u =
      [Out.line ("User Profile for " ++ u.username), Out.line "Registered Events:"] ++
      u.registeredEvents.map (fun eventId =>
        Out.line ("- " ++ eventName m eventId ++ " (ID: " ++ toString eventId ++ ")")) ++
      [Out.line "Event Ratings:"] ++
      u.eventRatings.map (fun kv =>
        Out.line ("- " ++ eventName m kv.1 ++ ": " ++ toString kv.2 ++ "/5")) := by
  unfold EventManager.displayUserProfile
  congr 1
  · congr 1
    congr 1
    apply filterMap_eq_map_of_forall
    intro k hk
    obtain ⟨hlt, hname⟩ := profile_lookup m k (hreg k hk)
    simp only [dif_pos hlt, hname]
  · apply filterMap_eq_map_of_forall
    intro kv hkv
    obtain ⟨hlt, hname⟩ := profile_lookup m kv.1 (hrat kv hkv)
    simp only [dif_pos hlt, hname]

/-- C16 (no dangling event ids). In every state the loop of `main` reaches,
every id in every user's registered-events sequence and every key of every
user's rating map is the id of an event of the collection. So for every user
`displayUserProfile` skips no entry: after the two header lines its output has
one line per entry of the registered-events sequence, in sequence order and
with duplicates kept, naming the event with that id, then the line "Event
Ratings:" and one line per entry of the rating map with the event name and the
rating. -/
theorem no_dangling_event_ids (s : Shell) (h : Reachable s) :
    (∀ u ∈ s.manager.users, ∀ k ∈ u.registeredEvents, ∃ e ∈ s.manager.events, e.id = k) ∧
    (∀ u ∈ s.manager.users, ∀ kv ∈ u.eventRatings,
      ∃ e ∈ s.manager.events, e.id = kv.1) ∧
    (∀ u ∈ s.manager.users, ∀ k,
      k ∈ u.registeredEvents ∨ k ∈ u.eventRatings.map Prod.fst →
      ∃ e ∈ s.manager.events, e.id = k ∧ eventName s.manager k = e.name) ∧
    (∀ u ∈ s.manager.users,
      s.manager.displayUserProfile u =
        [Out.line ("User Profile for " ++ u.username), Out.line "Registered Events:"] ++
        u.registeredEvents.map (fun eventId =>
          Out.line ("- " ++ eventName s.manager eventId ++ " (ID: " ++ toString eventId
            ++ ")")) ++
        [Out.line "Event Ratings:"] ++
        u.eventRatings.map (fun kv =>
          Out.line ("- " ++ eventName s.manager kv.1 ++ ": " ++ toString kv.2 ++ "/5"))) := by
  obtain ⟨hreg, hrat⟩ := noDangling_reachable s h
  refine ⟨hreg, hrat, ?_, ?_⟩
  · intro u hu k hk
    have hex : ∃ e ∈ s.manager.events, e.id = k := by
      rcases hk with hk | hk
      · exact hreg u hu k hk
      · obtain ⟨kv, hkv, rfl⟩ := List.mem_map.mp hk
        exact hrat u hu kv hkv
    obtain ⟨pre, e, post, hs, hpre, he⟩ :=
      exists_first_split (fun event : Event => event.id == k) s.manager.events
        (by obtain ⟨x, hx, hid⟩ := hex; exact ⟨x, hx, by simp [hid]⟩)
    refine ⟨e, by rw [hs]; simp, by simpa using he, ?_⟩
    unfold eventName
    rw [hs, find?_split _ pre e post hpre he]
  · intro u hu
    exact displayUserProfile_of_valid s.manager u (hreg u hu) (hrat u hu)

/-- Instance of C16: the profile of "sit" at the end of the sample session. -/
theorem no_dangling_event_ids_witness :
    sampleState.manager.displayUserProfile
        ((((User.ctor "sit" "pune1234" true).registerForEvent 4).registerForEvent 2).rateEvent
          2 5) =
      [Out.line "User Profile for sit", Out.line "Registered Events:",
       Out.line "- Chess Open (ID: 4)", Out.line "- Web Development (ID: 2)",
       Out.line "Event Ratings:", Out.line "- Web Development: 5/5"] :=
  ((no_dangling_event_ids sampleState sampleState_reachable).2.2.2
    ((((User.ctor "sit" "pune1234" true).registerForEvent 4).registerForEvent 2).rateEvent
      2 5) (by decide)).trans (by decide)

/-! ## Nothing is removed -/

/-- An event extends itself. -/
theorem eventExtends_refl (e : Event) : EventExtends e e :=
  ⟨rfl, rfl, rfl, rfl, rfl, rfl, List.prefix_refl _, List.prefix_refl _, List.prefix_refl _⟩

/-- Extension of events is transitive. -/
theorem eventExtends_trans (a b c : Event) (h1 : EventExtends a b) (h2 : EventExtends b c) :
    EventExtends a c := by
  obtain ⟨a1, a2, a3, a4, a5, a6, a7, a8, a9⟩ := h1
  obtain ⟨b1, b2, b3, b4, b5, b6, b7, b8, b9⟩ := h2
  exact ⟨b1.trans a1, b2.trans a2, b3.trans a3, b4.trans a4, b5.trans a5, b6.trans a6,
    a7.trans b7, a8.trans b8, a9.trans b9⟩

/-- A collection extends itself, also with new events after it. -/
theorem eventsExtend_append (l extra : List Event) : EventsExtend l (l ++ extra) := by
  induction l with
  | nil => exact True.intro
  | cons e l ih => exact ⟨eventExtends_refl e, ih⟩

/-- A collection extends itself. -/
theorem eventsExtend_refl (l : List Event) : EventsExtend l l := by
  have h := eventsExtend_append l []
  rw [List.append_nil] at h
  exact h

/-- Replacing one event by an extension of it extends the collection. -/
theorem eventsExtend_replace (pre : List Event) (e e' : Event) (post : List Event)
    (h : EventExtends e e') : EventsExtend (pre ++ e :: post) (pre ++ e' :: post) := by
  induction pre with
  | nil => exact ⟨h, eventsExtend_refl post⟩
  | cons a pre ih => exact ⟨eventExtends_refl a, ih⟩

/-- Extension of collections is transitive. -/
theorem eventsExtend_trans : ∀ (a b c : List Event),
    EventsExtend a b → EventsExtend b c → EventsExtend a c
  | [], _, _, _, _ => True.intro
  | _ :: _, [], _, h1, _ => absurd h1 (by simp [EventsExtend])
  | _ :: _, _ :: _, [], _, h2 => absurd h2 (by simp [EventsExtend])
  | x :: xs, y :: ys, z :: zs, h1, h2 =>
    ⟨eventExtends_trans x y z h1.1 h2.1, eventsExtend_trans xs ys zs h1.2 h2.2⟩

/-- What extension says place by place: the later collection is at least as
long, and at every index of the earlier one it has an extension of the event
there. -/
theorem eventsExtend_getElem : ∀ (l l' : List Event), EventsExtend l l' →
    l.length ≤ l'.length ∧
    ∀ (i : Nat) (e : Event), l[i]? = some e → ∃ e', l'[i]? = some e' ∧ EventExtends e e'
  | [], _, _ => ⟨Nat.zero_le _, fun i e h => by simp at h⟩
  | _ :: _, [], h => absurd h (by simp [EventsExtend])
  | x :: xs, y :: ys, h => by
    obtain ⟨hlen, hget⟩ := eventsExtend_getElem xs ys h.2
    refine ⟨by simp only [List.length_cons]; omega, ?_⟩
    intro i e hi
    cases i with
    | zero =>
      have hx : x = e := by simpa using hi
      subst hx
      exact ⟨y, by simp, h.1⟩
    | succ j =>
      have hj : xs[j]? = some e := by simpa using hi
      obtain ⟨e', he', hext⟩ := hget j e hj
      exact ⟨e', by simpa using he', hext⟩

/-- The manager's registration call extends the event collection. -/
theorem registerParticipant_extends (m : EventManager) (eventId : Int) (username : String) :
    EventsExtend m.events (m.registerParticipant eventId username).1.events := by
  by_cases hex : ∃ e ∈ m.events, e.id = eventId
  · obtain ⟨pre, e, post, hs, hpre, he⟩ :=
      exists_first_split (fun event : Event => event.id == eventId) m.events
        (by obtain ⟨x, hx, hid⟩ := hex; exact ⟨x, hx, by simp [hid]⟩)
    rw [registerParticipant_of_split m eventId username pre e post hs
      (fun x hx => (id_beq_false_iff x eventId).mp (hpre x hx)) (by simpa using he), hs]
    apply eventsExtend_replace
    rw [register_participant_eq]
    split
    · exact ⟨rfl, rfl, rfl, rfl, rfl, rfl, List.prefix_append _ _, List.prefix_refl _,
        List.prefix_refl _⟩
    · exact ⟨rfl, rfl, rfl, rfl, rfl, rfl, List.prefix_refl _, List.prefix_append _ _,
        List.prefix_refl _⟩
  · rw [registerParticipant_of_absent m eventId username (fun e he hid => hex ⟨e, he, hid⟩)]
    exact eventsExtend_refl _

/-- The manager's rating call extends the event collection. -/
theorem rateEvent_extends (m : EventManager) (eventId rating : Int) (user : User) :
    EventsExtend m.events (m.rateEvent eventId rating user).1.events := by
  by_cases hex : ∃ e ∈ m.events, e.id = eventId
  · obtain ⟨pre, e, post, hs, hpre, he⟩ :=
      exists_first_split (fun event : Event => event.id == eventId) m.events
        (by obtain ⟨x, hx, hid⟩ := hex; exact ⟨x, hx, by simp [hid]⟩)
    rw [rateEvent_of_split m eventId rating user pre e post hs
      (fun x hx => (id_beq_false_iff x eventId).mp (hpre x hx)) (by simpa using he), hs]
    apply eventsExtend_replace
    exact ⟨rfl, rfl, rfl, rfl, rfl, rfl, List.prefix_refl _, List.prefix_refl _,
      List.prefix_append _ _⟩
  · rw [rateEvent_of_absent m eventId rating user (fun e he hid => hex ⟨e, he, hid⟩)]
    exact eventsExtend_refl _

/-- The admin command extends the event collection. -/
theorem addNewEvent_extends (m : EventManager) (nextId : Int) (inp : NewEventInput) :
    EventsExtend m.events (m.addNewEvent nextId inp).1.events := by
  rcases addNewEvent_cases m nextId inp with ⟨hm, _⟩ | ⟨e, _, _, _, _, _, hm, _⟩
  · rw [hm]
    exact eventsExtend_refl _
  · rw [hm]
    exact eventsExtend_append _ _

/-- Every effect of a pass of the loop extends the event collection. -/
theorem effect_extends (s : Shell) (inp : Input) (s' : Shell) (heff : Effect s inp s') :
    EventsExtend s.manager.events s'.manager.events := by
  cases heff with
  | same hm hn => rw [hm]; exact eventsExtend_refl _
  | accepted pre e post ua user ub mi hinp hc hcur he hu hpre hid hroom hm hn =>
    rw [hm, he]
    exact eventsExtend_replace pre e _ post
      ⟨rfl, rfl, rfl, rfl, rfl, rfl, List.prefix_append _ _, List.prefix_refl _,
        List.prefix_refl _⟩
  | waitlisted pre e post ua user ub mi hinp hc hcur he hu hpre hid hfull hm hn =>
    rw [hm, he]
    exact eventsExtend_replace pre e _ post
      ⟨rfl, rfl, rfl, rfl, rfl, rfl, List.prefix_refl _, List.prefix_append _ _,
        List.prefix_refl _⟩
  | rated pre e post ua user ub mi hinp hc hcur he hu hpre hid hrange hm hn =>
    rw [hm, he]
    exact eventsExtend_replace pre e _ post
      ⟨rfl, rfl, rfl, rfl, rfl, rfl, List.prefix_refl _, List.prefix_refl _,
        List.prefix_append _ _⟩
  | added e ua user ub mi hinp hc hcur hu hadmin hid hcap hreg hwait hrat hm hn =>
    rw [hm]
    exact eventsExtend_append _ _

/-- C17 (nothing is ever removed). Every operation of the manager that can
change it (`addEvent`, `addUser`, `registerParticipant`, `authenticateUser`,
`rateEvent`, `searchEvents`, `addNewEvent`; the display functions are `const`),
every pass of the loop of `main` and every run of passes leaves an event
collection that extends the one before: it is at least as long, and at every
index of the earlier collection it holds an event with the same id, name, date,
capacity, category and variant fields whose `registeredUsers`, `waitlist` and
`ratings` have the earlier sequences as prefixes. So no event is deleted, no
username leaves `registeredUsers` or `waitlist`, and in particular none moves
from the waitlist to the registered users. -/
theorem nothing_removed :
    (∀ (m : EventManager) (e : Event), EventsExtend m.events (m.addEvent e).events) ∧
    (∀ (m : EventManager) (u : User), EventsExtend m.events (m.addUser u).events) ∧
    (∀ (m : EventManager) (eventId : Int) (username : String),
      EventsExtend m.events (m.registerParticipant eventId username).1.events) ∧
    (∀ (m : EventManager) (username password : String),
      EventsExtend m.events (m.authenticateUser username password).1.events) ∧
    (∀ (m : EventManager) (eventId rating : Int) (user : User),
      EventsExtend m.events (m.rateEvent eventId rating user).1.events) ∧
    (∀ (m : EventManager) (query : String),
      EventsExtend m.events (m.searchEvents query).1.events) ∧
    (∀ (m : EventManager) (nextId : Int) (inp : NewEventInput),
      EventsExtend m.events (m.addNewEvent nextId inp).1.events) ∧
    (∀ (s : Shell) (inp : Input) (s' : Shell) (out : List Out),
      step s inp = some (s', out) → EventsExtend s.manager.events s'.manager.events) ∧
    (∀ (s : Shell) (inputs : List Input) (s' : Shell),
      run s inputs = some s' → EventsExtend s.manager.events s'.manager.events) ∧
    (∀ l l' : List Event, EventsExtend l l' →
      l.length ≤ l'.length ∧
      ∀ (i : Nat) (e : Event), l[i]? = some e →
        ∃ e', l'[i]? = some e' ∧
          e'.id = e.id ∧ e'.name = e.name ∧ e'.date = e.date ∧ e'.capacity = e.capacity ∧
          e'.category = e.category ∧ e'.kind = e.kind ∧
          e.registeredUsers <+: e'.registeredUsers ∧ e.waitlist <+: e'.waitlist ∧
          e.ratings <+: e'.ratings) := by
  refine ⟨fun m e => eventsExtend_append _ _, fun m u => eventsExtend_refl _,
    registerParticipant_extends, fun m u p => eventsExtend_refl _, rateEvent_extends, ?_,
    addNewEvent_extends, ?_, ?_, ?_⟩
  · intro m query
    rw [searchEvents_eq]
    exact eventsExtend_refl _
  · intro s inp s' out h
    exact effect_extends s inp s' (step_effect s inp s' out h)
  · intro s inputs s' h
    exact run_induction (fun t => EventsExtend s.manager.events t.manager.events)
      (fun a inp b ha heff =>
        eventsExtend_trans _ _ _ ha (effect_extends a inp b heff))
      inputs s s' (eventsExtend_refl _) h
  · intro l l' h
    obtain ⟨hlen, hget⟩ := eventsExtend_getElem l l' h
    exact ⟨hlen, hget⟩

/-- Instance of C17: the sample session extends the seed collection. -/
theorem nothing_removed_witness :
    EventsExtend initial.manager.events sampleState.manager.events :=
  nothing_removed.2.2.2.2.2.2.2.2.1 initial sampleInputs sampleState (by rfl)

/-! ## The capacity of the events -/

/-- After an effect of a pass, the capacity of every event is the capacity of
an event from before, or the capacity just read by menu choice 6. -/
theorem effect_capacity (s : Shell) (inp : Input) (s' : Shell) (heff : Effect s inp s') :
    ∀ e' ∈ s'.manager.events,
      (∃ e0 ∈ s.manager.events, e'.capacity = e0.capacity) ∨
      ∃ mi, inp = Input.menu mi ∧ mi.choice = 6 ∧ e'.capacity = mi.newEvent.capacity := by
  have hrep : ∀ (pre post : List Event) (e e1 x : Event), x ∈ pre ++ e1 :: post →
      e1.capacity = e.capacity → ∃ e0 ∈ pre ++ e :: post, x.capacity = e0.capacity := by
    intro pre post e e1 x hx hcap
    simp only [List.mem_append, List.mem_cons] at hx
    rcases hx with hx | rfl | hx
    · exact ⟨x, by simp [hx], rfl⟩
    · exact ⟨e, by simp, hcap⟩
    · exact ⟨x, by simp [hx], rfl⟩
  cases heff with
  | same hm hn =>
    intro e' he'
    rw [hm] at he'
    exact Or.inl ⟨e', he', rfl⟩
  | accepted pre e post ua user ub mi hinp hc hcur he hu hpre hid hroom hm hn =>
    intro e' he'
    rw [hm] at he'
    rw [he]
    exact Or.inl (hrep pre post e _ e' he' rfl)
  | waitlisted pre e post ua user ub mi hinp hc hcur he hu hpre hid hfull hm hn =>
    intro e' he'
    rw [hm] at he'
    rw [he]
    exact Or.inl (hrep pre post e _ e' he' rfl)
  | rated pre e post ua user ub mi hinp hc hcur he hu hpre hid hrange hm hn =>
    intro e' he'
    rw [hm] at he'
    rw [he]
    exact Or.inl (hrep pre post e _ e' he' rfl)
  | added e ua user ub mi hinp hc hcur hu hadmin hid hcap hreg hwait hrat hm hn =>
    intro e' he'
    rw [hm] at he'
    simp only [List.mem_append, List.mem_singleton] at he'
    rcases he' with he' | rfl
    · exact Or.inl ⟨e', he', rfl⟩
    · exact Or.inr ⟨mi, hinp, hc, hcap⟩

/-- After a run, the capacity of every event is the capacity of an event from
before the run, or a capacity read by menu choice 6 during the run. -/
theorem run_capacity (inputs : List Input) : ∀ (s s' : Shell), run s inputs = some s' →
    ∀ e' ∈ s'.manager.events,
      (∃ e0 ∈ s.manager.events, e'.capacity = e0.capacity) ∨
      ∃ mi, Input.menu mi ∈ inputs ∧ mi.choice = 6 ∧ e'.capacity = mi.newEvent.capacity := by
  induction inputs with
  | nil =>
    intro s s' hrun e' he'
    simp only [run, Option.some.injEq] at hrun
    rw [← hrun] at he'
    exact Or.inl ⟨e', he', rfl⟩
  | cons inp rest ih =>
    intro s s' hrun e' he'
    unfold run at hrun
    cases hst : step s inp with
    | none => rw [hst] at hrun; cases hrun
    | some r =>
      rw [hst] at hrun
      rcases ih r.1 s' hrun e' he' with ⟨e1, he1, hcap1⟩ | ⟨mi, hmi, hc, hcap⟩
      · rcases effect_capacity s inp r.1 (step_effect s inp r.1 r.2 hst) e1 he1 with
          ⟨e0, he0, hcap0⟩ | ⟨mi, hinp, hc, hcap⟩
        · exact Or.inl ⟨e0, he0, hcap1.trans hcap0⟩
        · exact Or.inr ⟨mi, by rw [hinp]; exact List.mem_cons_self _ _, hc,
            hcap1.trans hcap⟩
      · exact Or.inr ⟨mi, List.mem_cons_of_mem _ hmi, hc, hcap⟩

/-- C18 (capacity is positive), counterexample. The seed admin logs in and adds
a seminar, entering 0 as capacity: the loop reaches a state whose collection
holds an event, with id 4, of capacity 0. -/
theorem capacity_zero_reachable :
    ∃ s, run initial zeroCapacityInputs = some s ∧
      ∃ e ∈ s.manager.events, e.id = 4 ∧ e.capacity = 0 ∧ ¬ 1 ≤ e.capacity := by
  refine ⟨(run initial zeroCapacityInputs).getD initial, by rfl, ?_⟩
  decide

/-- C18 (capacity is positive), as amended. In every state the loop of `main`
reaches, the capacity of every event is that of a seed event (100, 50 or 500)
or a capacity entered in an add-new-event command (menu choice 6) of the run,
which is stored as entered, without a check. So every event has capacity at
least 1 provided every capacity entered with menu choice 6 was at least 1. -/
theorem capacity_as_entered (inputs : List Input) (s : Shell)
    (h : run initial inputs = some s) :
    (∀ e ∈ s.manager.events,
      e.capacity = 100 ∨ e.capacity = 50 ∨ e.capacity = 500 ∨
      ∃ mi, Input.menu mi ∈ inputs ∧ mi.choice = 6 ∧ e.capacity = mi.newEvent.capacity) ∧
    ((∀ mi, Input.menu mi ∈ inputs → mi.choice = 6 → 1 ≤ mi.newEvent.capacity) →
      ∀ e ∈ s.manager.events, 1 ≤ e.capacity) := by
  have hseed : ∀ e0 ∈ initial.manager.events,
      e0.capacity = 100 ∨ e0.capacity = 50 ∨ e0.capacity = 500 := by decide
  have key : ∀ e ∈ s.manager.events,
      e.capacity = 100 ∨ e.capacity = 50 ∨ e.capacity = 500 ∨
      ∃ mi, Input.menu mi ∈ inputs ∧ mi.choice = 6 ∧ e.capacity = mi.newEvent.capacity := by
    intro e he
    rcases run_capacity inputs initial s h e he with ⟨e0, he0, hcap⟩ | hnew
    · rcases hseed e0 he0 with h1 | h1 | h1
      · exact Or.inl (hcap.trans h1)
      · exact Or.inr (Or.inl (hcap.trans h1))
      · exact Or.inr (Or.inr (Or.inl (hcap.trans h1)))
    · exact Or.inr (Or.inr (Or.inr hnew))
  refine ⟨key, ?_⟩
  intro hall e he
  rcases key e he with h1 | h1 | h1 | ⟨mi, hmi, hc, hcap⟩
  · omega
  · omega
  · omega
  · rw [hcap]
    exact hall mi hmi hc

/-- Instance of amended C18: in the sample session the only capacity entered is
2, and every event at its end has capacity at least 1. -/
theorem capacity_as_entered_witness :
    sampleState.manager.events.all (fun e => decide (1 ≤ e.capacity)) = true :=
  List.all_eq_true.mpr (fun e he => decide_eq_true
    ((capacity_as_entered sampleInputs sampleState (by rfl)).2 (by
      intro mi hmi _
      have hnew : mi.newEvent = sampleNewEvent := by
        simp only [sampleInputs, List.mem_cons, Input.menu.injEq, List.not_mem_nil, or_false,
          reduceCtorEq, false_or] at hmi
        rcases hmi with h | h | h | h | h | h | h | h <;> rw [h] <;> rfl
      rw [hnew]
      decide) e he))

/-! ## Capacities that are not positive -/

/-- The conversion of a negative `int` to `size_t`. -/
theorem toSizeT_of_negative (c : Int) (h0 : c < 0) (h1 : -INT_MAX - 1 ≤ c) :
    (toSizeT c : Int) = 18446744073709551616 + c := by
  unfold toSizeT SIZE_MOD
  unfold INT_MAX at h1
  have hm : ((2 ^ 64 : Nat) : Int) = 18446744073709551616 := by norm_num
  rw [hm]
  omega

/-- C19 (capacities that are not positive). An event of capacity 0 waitlists
every registration: the call returns false and appends to the waitlist, so from
empty `registeredUsers` a run of calls leaves them empty and puts every
username on the waitlist, in order. For a negative capacity the test
`registeredUsers.size() < capacity` is made on the capacity converted to
`size_t`, which for an `int` is `2 ^ 64 + capacity`; a call with fewer
registered users than that returns true and appends to `registeredUsers`, so
from an event with empty vectors a run of at most that many calls accepts every
one: all return true, `registeredUsers` is the usernames in call order, the
waitlist stays empty, and the number of registered users exceeds the
capacity. -/
theorem nonpositive_capacity :
    (∀ (e : Event) (u : String), e.capacity = 0 →
      e.register_participant u =
        ({ e with waitlist := e.waitlist ++ [u] }, false,
          [Out.line "Event is full. You've been added to the waitlist."])) ∧
    (∀ (e : Event) (us : List String), e.capacity = 0 → e.registeredUsers = [] →
      (e.registerAll us).2 = List.replicate us.length false ∧
      (e.registerAll us).1.registeredUsers = [] ∧
      (e.registerAll us).1.waitlist = e.waitlist ++ us) ∧
    (∀ c : Int, c < 0 → -INT_MAX - 1 ≤ c →
      (toSizeT c : Int) = 18446744073709551616 + c) ∧
    (∀ (e : Event) (u : String), e.capacity < 0 →
      e.registeredUsers.length < toSizeT e.capacity →
      e.register_participant u =
        ({ e with registeredUsers := e.registeredUsers ++ [u] }, true,
          [Out.line "Participant registered successfully."])) ∧
    (∀ (e : Event) (us : List String), e.capacity < 0 →
      e.registeredUsers = [] → e.waitlist = [] → us.length ≤ toSizeT e.capacity →
      (e.registerAll us).2 = List.replicate us.length true ∧
      (e.registerAll us).1.registeredUsers = us ∧
      (e.registerAll us).1.waitlist = [] ∧
      e.capacity < (((e.registerAll us).1.registeredUsers.length : Nat) : Int)) := by
  have hzero : toSizeT 0 = 0 := by decide
  refine ⟨?_, ?_, toSizeT_of_negative, ?_, ?_⟩
  · intro e u hc
    rw [register_participant_eq, hc, hzero, if_neg (Nat.not_lt_zero _)]
  · intro e us hc hr
    obtain ⟨h1, h2⟩ := registerAll_eq us e
    rw [h1, h2, hc, hzero, hr]
    refine ⟨?_, by simp, by simp⟩
    rw [List.eq_replicate_iff]
    refine ⟨by simp, ?_⟩
    intro b hb
    obtain ⟨i, _, rfl⟩ := List.mem_map.mp hb
    simp
  · intro e u _ hroom
    rw [register_participant_eq, if_pos hroom]
  · intro e us hc hr hw hlen
    obtain ⟨h1, h2⟩ := registerAll_eq us e
    rw [h1, h2, hr, hw]
    simp only [List.length_nil, Nat.sub_zero, Nat.zero_add, List.nil_append,
      List.take_of_length_le hlen, List.drop_of_length_le hlen]
    refine ⟨?_, trivial, trivial, by omega⟩
    rw [List.eq_replicate_iff]
    refine ⟨by simp, ?_⟩
    intro b hb
    obtain ⟨i, hi, rfl⟩ := List.mem_map.mp hb
    have hi2 : i < us.length := List.mem_range.mp hi
    simp only [decide_eq_true_eq]
    omega

/-- Instance of C19: three registrations on a seminar of capacity -1 are all
accepted, and three on one of capacity 0 are all waitlisted. -/
theorem nonpositive_capacity_witness :
    ((Seminar.ctor 4 "Gala" "2024-12-01" (-1) "Host").1.registerAll ["a", "b", "c"]).2 =
      [true, true, true] ∧
    ((Seminar.ctor 4 "Gala" "2024-12-01" (-1) "Host").1.registerAll
      ["a", "b", "c"]).1.registeredUsers = ["a", "b", "c"] ∧
    ((Seminar.ctor 4 "Open Mic" "2024-12-05" 0 "Host").1.registerAll ["a", "b", "c"]).2 =
      [false, false, false] ∧
    ((Seminar.ctor 4 "Open Mic" "2024-12-05" 0 "Host").1.registerAll
      ["a", "b", "c"]).1.waitlist = ["a", "b", "c"] :=
  have hneg := nonpositive_capacity.2.2.2.2
    (Seminar.ctor 4 "Gala" "2024-12-01" (-1) "Host").1 ["a", "b", "c"]
    (by decide) rfl rfl (by decide)
  have hzero := nonpositive_capacity.2.1
    (Seminar.ctor 4 "Open Mic" "2024-12-05" 0 "Host").1 ["a", "b", "c"] rfl rfl
  ⟨hneg.1, hneg.2.1, hzero.1, hzero.2.2⟩

/-! ## The held and the overwritten ratings -/

/-- What one `rateEvent` call on a user of the collection does: nothing, when
the index designates no user or no event has the id; otherwise it appends the
rating to the first event with the id and assigns it in the map of the user. -/
theorem rateCall_cases (m : EventManager) (c : RateCall) :
    (rateCall m c = m ∧
      (m.users[c.user]? = none ∨ ∀ e ∈ m.events, e.id ≠ c.eventId)) ∨
    ∃ pre e post ua u ub,
      m = ⟨pre ++ e :: post, ua ++ u :: ub⟩ ∧ ua.length = c.user ∧
      m.users[c.user]? = some u ∧
      (∀ x ∈ pre, x.id ≠ c.eventId) ∧ e.id = c.eventId ∧
      rateCall m c =
        ⟨pre ++ e.addRating c.rating :: post, ua ++ u.rateEvent c.eventId c.rating :: ub⟩ := by
  unfold rateCall
  cases hu : m.users[c.user]? with
  | none => exact Or.inl ⟨rfl, Or.inl rfl⟩
  | some u =>
    obtain ⟨ua, ub, hus, hlen, hset⟩ := split_at_index m.users c.user u hu
    by_cases hex : ∃ e ∈ m.events, e.id = c.eventId
    · right
      obtain ⟨pre, e, post, hs, hpre, he⟩ :=
        exists_first_split (fun event : Event => event.id == c.eventId) m.events
          (by obtain ⟨x, hx, hid⟩ := hex; exact ⟨x, hx, by simp [hid]⟩)
      have hpre2 : ∀ x ∈ pre, x.id ≠ c.eventId :=
        fun x hx => (id_beq_false_iff x c.eventId).mp (hpre x hx)
      have he2 : e.id = c.eventId := by simpa using he
      have hrate := rateEvent_of_split m c.eventId c.rating u pre e post hs hpre2 he2
      refine ⟨pre, e, post, ua, u, ub, ?_, hlen, rfl, hpre2, he2, ?_⟩
      · cases m
        simp only at hs hus
        rw [hs, hus]
      · simp only [hrate, hset]
        rfl
    · left
      have hno : ∀ e ∈ m.events, e.id ≠ c.eventId := fun e he hid => hex ⟨e, he, hid⟩
      have habs := rateEvent_of_absent m c.eventId c.rating u hno
      refine ⟨?_, Or.inr hno⟩
      simp only [habs, hset]
      rw [← hus]

/-- The first event with an id, when one event is replaced by an event with
the same id and the id looked for is another one. -/
theorem ratingsOf_replace_ne (pre : List Event) (e e' : Event) (post : List Event)
    (us us' : List User) (k : Int) (hid : e'.id = e.id) (hne : e.id ≠ k) :
    ratingsOf ⟨pre ++ e' :: post, us'⟩ k = ratingsOf ⟨pre ++ e :: post, us⟩ k := by
  have h1 : (e.id == k) = false := by simpa using hne
  have h2 : (e'.id == k) = false := by rw [hid]; exact h1
  unfold ratingsOf
  simp only [List.find?_append, List.find?_cons, h1, h2]

/-- The first event with an id, along a split at it. -/
theorem ratingsOf_split (pre : List Event) (e : Event) (post : List Event) (us : List User)
    (k : Int) (hpre : ∀ x ∈ pre, x.id ≠ k) (hid : e.id = k) :
    ratingsOf ⟨pre ++ e :: post, us⟩ k = e.ratings := by
  unfold ratingsOf
  simp only
  rw [find?_split _ pre e post (fun x hx => (id_beq_false_iff x k).mpr (hpre x hx))
    (by simp [hid])]

/-- One `rateEvent` call: the ratings of the event and the ratings held before
the call are, as multisets, the ratings of the event before, the ratings held
after the call and the rating it overwrote. -/
theorem rateCall_accounts (m : EventManager) (c : RateCall) (k : Int) :
    ((ratingsOf (rateCall m c) k : List Int) : Multiset Int) + (heldRatings m k : List Int) =
      (ratingsOf m k : List Int) + (heldRatings (rateCall m c) k : List Int) +
        (overwrittenBy m c k : List Int) := by
  rcases rateCall_cases m c with ⟨hsame, hwhy⟩ |
    ⟨pre, e, post, ua, u, ub, hm, hlen, hu, hpre, hid, hcall⟩
  · have hnone : overwrittenBy m c k = [] := by
      unfold overwrittenBy
      by_cases hcond : c.eventId = k ∧ k ∈ m.events.map Event.id
      · rw [if_pos hcond]
        rcases hwhy with hnu | hne
        · rw [hnu]
        · exfalso
          obtain ⟨x, hx, hxk⟩ := List.mem_map.mp hcond.2
          exact hne x hx (hxk.trans hcond.1.symm)
      · rw [if_neg hcond]
    rw [hsame, hnone]
    simp [add_comm]
  · rw [hcall]
    by_cases hk : c.eventId = k
    · have hmem : k ∈ m.events.map Event.id := by
        rw [hm]
        exact List.mem_map.mpr ⟨e, by simp, hid.trans hk⟩
      have how : overwrittenBy m c k = (List.lookup k u.eventRatings).toList := by
        unfold overwrittenBy
        rw [if_pos ⟨hk, hmem⟩, hu]
      rw [how, hm, heldRatings_split, heldRatings_split,
        ratingsOf_split pre e post _ k (fun x hx => by rw [← hk]; exact hpre x hx)
          (hid.trans hk),
        ratingsOf_split pre (e.addRating c.rating) post _ k
          (fun x hx => by rw [← hk]; exact hpre x hx) (hid.trans hk)]
      have hlook : List.lookup k (u.rateEvent c.eventId c.rating).eventRatings
          = some c.rating := by
        rw [← hk]
        exact lookup_mapAssign_self _ _ _
      rw [hlook]
      simp only [Event.addRating, Option.toList, ← Multiset.coe_add]
      abel
    · have how : overwrittenBy m c k = [] := by
        unfold overwrittenBy
        rw [if_neg (fun h => hk h.1)]
      have hne : e.id ≠ k := by rw [hid]; exact hk
      have hlook : List.lookup k (u.rateEvent c.eventId c.rating).eventRatings
          = List.lookup k u.eventRatings :=
        lookup_mapAssign_other _ _ _ _ (fun h => hk h.symm)
      rw [how, hm, heldRatings_split, heldRatings_split, hlook,
        ratingsOf_replace_ne pre e (e.addRating c.rating) post (ua ++ u :: ub) _ k rfl hne]
      simp

/-- A sequence of `rateEvent` calls: the ratings of the event and the ratings
held before are, as multisets, the ratings of the event before, the ratings
held after and the ratings overwritten on the way. -/
theorem rateAll_accounts (cs : List RateCall) : ∀ (m : EventManager) (k : Int),
    ((ratingsOf (rateAll m cs) k : List Int) : Multiset Int) + (heldRatings m k : List Int) =
      (ratingsOf m k : List Int) + (heldRatings (rateAll m cs) k : List Int) +
        (overwritten m cs k : List Int) := by
  induction cs with
  | nil =>
    intro m k
    simp [rateAll, overwritten, add_comm]
  | cons c cs ih =>
    intro m k
    have hstep := rateCall_accounts m c k
    have hrest := ih (rateCall m c) k
    have hrun : rateAll m (c :: cs) = rateAll (rateCall m c) cs := rfl
    have how : ((overwritten m (c :: cs) k : List Int) : Multiset Int) =
        (overwrittenBy m c k : List Int) + (overwritten (rateCall m c) cs k : List Int) := by
      rw [Multiset.coe_add]
      rfl
    rw [hrun, how]
    apply add_right_cancel
      (b := ((ratingsOf (rateCall m c) k : List Int) : Multiset Int) +
        (heldRatings (rateCall m c) k : List Int))
    calc ((ratingsOf (rateAll (rateCall m c) cs) k : List Int) : Multiset Int) +
          (heldRatings m k : List Int) +
          ((ratingsOf (rateCall m c) k : List Int) + (heldRatings (rateCall m c) k : List Int))
        = ((ratingsOf (rateAll (rateCall m c) cs) k : List Int) +
            (heldRatings (rateCall m c) k : List Int)) +
          ((ratingsOf (rateCall m c) k : List Int) + (heldRatings m k : List Int)) := by abel
      _ = ((ratingsOf (rateCall m c) k : List Int) +
            (heldRatings (rateAll (rateCall m c) cs) k : List Int) +
            (overwritten (rateCall m c) cs k : List Int)) +
          ((ratingsOf m k : List Int) + (heldRatings (rateCall m c) k : List Int) +
            (overwrittenBy m c k : List Int)) := by rw [hrest, hstep]
      _ = _ := by abel

/-- One `rateEvent` call keeps the number of users and leaves the users at
other indices as they are; at its own index the user after the call is the
user before or that user with the rating assigned. -/
theorem rateCall_users (m : EventManager) (c : RateCall) :
    (rateCall m c).users.length = m.users.length ∧
    (∀ i, i ≠ c.user → (rateCall m c).users[i]? = m.users[i]?) ∧
    (∀ u', (rateCall m c).users[c.user]? = some u' →
      ∃ u, m.users[c.user]? = some u ∧
        (u' = u ∨ u' = u.rateEvent c.eventId c.rating)) := by
  rcases rateCall_cases m c with ⟨hsame, _⟩ |
    ⟨pre, e, post, ua, u, ub, hm, hlen, hu, _, _, hcall⟩
  · rw [hsame]
    exact ⟨rfl, fun i _ => rfl, fun u' hu' => ⟨u', hu', Or.inl rfl⟩⟩
  · have hset : (rateCall m c).users = m.users.set c.user (u.rateEvent c.eventId c.rating) := by
      rw [hcall, hm, ← hlen]
      simp
    rw [hset]
    refine ⟨List.length_set _ _ _, ?_, ?_⟩
    · intro i hi
      exact List.getElem?_set_ne (Ne.symm hi)
    · intro u' hu'
      refine ⟨u, hu, Or.inr ?_⟩
      rw [List.getElem?_set_self'] at hu'
      rw [hu] at hu'
      simpa using hu'.symm

/-- When no user's map holds a rating for `k` at the start and no user is
named twice by the calls for `k` that designate a user, a sequence of
`rateEvent` calls overwrites no rating for `k`. -/
theorem overwritten_eq_nil (cs : List RateCall) : ∀ (m : EventManager) (k : Int),
    (∀ c ∈ cs, c.eventId = k → ∀ u, m.users[c.user]? = some u →
      List.lookup k u.eventRatings = none) →
    ((cs.filter (fun c => decide (c.eventId = k ∧ c.user < m.users.length))).map
      RateCall.user).Nodup →
    overwritten m cs k = [] := by
  induction cs with
  | nil => intro m k _ _; rfl
  | cons c cs ih =>
    intro m k hfresh hnd
    obtain ⟨hlen, hother, hown⟩ := rateCall_users m c
    have hhead : overwrittenBy m c k = [] := by
      unfold overwrittenBy
      split
      · rename_i hcond
        cases hu : m.users[c.user]? with
        | none => rfl
        | some u =>
          simp only
          rw [hfresh c (List.mem_cons_self c cs) hcond.1 u hu]
          rfl
      · rfl
    have htail : overwritten (rateCall m c) cs k = [] := by
      apply ih
      · intro d hd hdk u1 hu1
        by_cases hsame : d.user = c.user
        · rw [hsame] at hu1
          obtain ⟨u, hu, hcase⟩ := hown u1 hu1
          by_cases hck : c.eventId = k
          · exfalso
            have hcu : c.user < m.users.length := by
              rcases Nat.lt_or_ge c.user m.users.length with h | h
              · exact h
              · rw [List.getElem?_eq_none h] at hu
                cases hu
            rw [List.filter_cons, if_pos (by simpa using ⟨hck, hcu⟩), List.map_cons,
              List.nodup_cons] at hnd
            apply hnd.1
            rw [← hsame]
            apply List.mem_map_of_mem
            rw [List.mem_filter]
            refine ⟨hd, ?_⟩
            rw [hsame]
            simpa using ⟨hdk, hcu⟩
          · have hbefore := hfresh d (List.mem_cons_of_mem c hd) hdk u (by rw [hsame]; exact hu)
            rcases hcase with rfl | rfl
            · exact hbefore
            · rw [show (u.rateEvent c.eventId c.rating).eventRatings =
                mapAssign u.eventRatings c.eventId c.rating from rfl,
                lookup_mapAssign_other _ _ _ _ (fun h => hck h.symm)]
              exact hbefore
        · rw [hother d.user hsame] at hu1
          exact hfresh d (List.mem_cons_of_mem c hd) hdk u1 hu1
      · rw [hlen]
        rw [List.filter_cons] at hnd
        split at hnd
        · rw [List.map_cons, List.nodup_cons] at hnd
          exact hnd.2
        · exact hnd
    show overwrittenBy m c k ++ overwritten (rateCall m c) cs k = []
    rw [hhead, htail]
    rfl

/-- With pairwise distinct ids, the lookup for the id of an event of the
collection finds that event. -/
theorem ratingsOf_of_mem (m : EventManager) (e : Event)
    (hnd : (m.events.map Event.id).Nodup) (he : e ∈ m.events) :
    ratingsOf m e.id = e.ratings := by
  obtain ⟨pre, post, hs⟩ := List.append_of_mem he
  rw [hs] at hnd
  have hother := ids_ne_of_nodup pre e post hnd
  cases m with
  | mk evs us =>
    simp only at hs
    rw [hs]
    exact ratingsOf_split pre e post us e.id (fun x hx => hother x (Or.inl hx)) rfl

/-- The seed has no ratings: none in the events, none in the users' maps. -/
theorem seed_no_ratings :
    (∀ k, ratingsOf seed.1 k = []) ∧ (∀ k, heldRatings seed.1 k = []) ∧
    (∀ (i : Nat) (u : User), seed.1.users[i]? = some u → u.eventRatings = []) := by
  have hev : ∀ e ∈ seed.1.events, e.ratings = [] := by decide
  have hus : ∀ u ∈ seed.1.users, u.eventRatings = [] := by decide
  refine ⟨?_, fun k => rfl, ?_⟩
  · intro k
    unfold ratingsOf
    cases hf : seed.1.events.find? (fun event => event.id == k) with
    | none => rfl
    | some e => exact hev e (List.mem_of_find?_eq_some hf)
  · intro i u hu
    exact hus u (List.getElem?_mem hu)

/-- C14 (rating copies), as amended. In every state reached from the seed by a
sequence of `rateEvent` calls on users of the collection, for any event ids and
ratings, and for every event `e`: the values of the ratings sequence of `e`
are, as a multiset, the ratings that the users' maps hold for the id of `e`
together with the ratings for that id that the calls overwrote in the maps. So
the ratings sequence and the held ratings are equal as multisets exactly when
no rating for `e` was overwritten, and they are equal whenever no user is
named twice by the calls that rate `e`; in any case the held ratings are
contained in the ratings sequence. -/
theorem rating_copies_accounted (cs : List RateCall) :
    ∀ e ∈ (rateAll seed.1 cs).events,
      e.ratings.Perm
        (heldRatings (rateAll seed.1 cs) e.id ++ overwritten seed.1 cs e.id) ∧
      (e.ratings.Perm (heldRatings (rateAll seed.1 cs) e.id) ↔
        overwritten seed.1 cs e.id = []) ∧
      (((cs.filter (fun c => decide (c.eventId = e.id ∧ c.user < seed.1.users.length))).map
          RateCall.user).Nodup →
        e.ratings.Perm (heldRatings (rateAll seed.1 cs) e.id)) ∧
      (heldRatings (rateAll seed.1 cs) e.id).Subperm e.ratings := by
  intro e he
  have hseed : (seed.1.events.map Event.id).Nodup ∧
      ∀ e ∈ seed.1.events, (heldRatings seed.1 e.id).Subperm e.ratings := by
    refine ⟨by decide, ?_⟩
    intro e _
    show List.Subperm [] e.ratings
    exact List.nil_subperm
  have hnd := (rateAll_keeps_contained cs seed.1 hseed).1
  obtain ⟨hr0, hh0, hm0⟩ := seed_no_ratings
  have hacc := rateAll_accounts cs seed.1 e.id
  rw [ratingsOf_of_mem (rateAll seed.1 cs) e hnd he, hr0, hh0, Multiset.coe_add] at hacc
  have hperm : e.ratings.Perm
      (heldRatings (rateAll seed.1 cs) e.id ++ overwritten seed.1 cs e.id) := by
    rw [← Multiset.coe_eq_coe]
    simpa using hacc
  have hiff : e.ratings.Perm (heldRatings (rateAll seed.1 cs) e.id) ↔
      overwritten seed.1 cs e.id = [] := by
    constructor
    · intro h
      have hlen := (h.symm.trans hperm).length_eq
      rw [List.length_append] at hlen
      exact List.length_eq_zero.mp (by omega)
    · intro h
      rw [h, List.append_nil] at hperm
      exact hperm
  refine ⟨hperm, hiff, ?_, ?_⟩
  · intro hnodup
    apply hiff.mpr
    apply overwritten_eq_nil cs seed.1 e.id
    · intro c _ _ u hu
      rw [hm0 c.user u hu]
      rfl
    · exact hnodup
  · exact List.Subperm.trans (List.Sublist.subperm (List.sublist_append_left _ _))
      hperm.symm.subperm

/-- Instance of amended C14: when "lavale" rates the workshop with 3 and "sit"
rates it with 4, the ratings 3, 4 are the held ratings; when "lavale" rates it
with 3 and then with 5, the ratings 3, 5 are the held rating 5 and the
overwritten rating 3. -/
theorem rating_copies_accounted_witness :
    [3, 4].Perm (heldRatings (rateAll seed.1 [⟨1, 2, 3⟩, ⟨0, 2, 4⟩, ⟨1, 3, 5⟩]) 2) ∧
    heldRatings (rateAll seed.1 [⟨1, 2, 3⟩, ⟨1, 2, 5⟩]) 2 = [5] ∧
    overwritten seed.1 [⟨1, 2, 3⟩, ⟨1, 2, 5⟩] 2 = [3] ∧
    [3, 5].Perm (heldRatings (rateAll seed.1 [⟨1, 2, 3⟩, ⟨1, 2, 5⟩]) 2 ++
      overwritten seed.1 [⟨1, 2, 3⟩, ⟨1, 2, 5⟩] 2) :=
  ⟨(rating_copies_accounted [⟨1, 2, 3⟩, ⟨0, 2, 4⟩, ⟨1, 3, 5⟩]
      (((Workshop.ctor 2 "Web Development" "2024-11-01" 50 "Full-stack JavaScript"
        true).1.addRating 3).addRating 4) (by decide)).2.2.1 (by decide),
   by decide, by decide,
   (rating_copies_accounted [⟨1, 2, 3⟩, ⟨1, 2, 5⟩]
      (((Workshop.ctor 2 "Web Development" "2024-11-01" 50 "Full-stack JavaScript"
        true).1.addRating 3).addRating 5) (by decide)).1⟩

end Campus
